import Mathlib

/-!
# addCedictMoedictToDb

A shallow embedding of `addCedictMoedictToDb.go`: the lexicon load
(`addCedictData`), the entry-dump load (`addMoedictData`) and the literal
encoder (`stringToSQLStatement`), together with the pieces of the Go standard
library they call (`strings.Replace`, `strings.Split`, `strings.Join`,
`strings.HasPrefix`, `utf8.RuneCountInString`, `Regexp.FindStringSubmatch`).

Go strings are byte sequences, so a string is a list of bytes here; text
constants are written through `utf8`.
-/

namespace AddCedictMoedictToDb

/-! ## Strings -/

/-- A Go `string`: an immutable sequence of bytes. -/
abbrev GoString := List UInt8

/-- The bytes of a text constant in UTF-8. -/
def utf8 (s : String) : GoString := s.data.flatMap String.utf8EncodeChar

/-- The single quote `'`. -/
def quote : UInt8 := 0x27

/-- The line feed. -/
def newline : UInt8 := 0x0A

/-- Continuation bytes, `locb ≤ c ≤ hicb` in package `utf8`. -/
def isCont (c : UInt8) : Bool := 0x80 ≤ c && c ≤ 0xBF

/-- The table `first` of package `utf8` joined with `acceptRanges`: for a lead
byte of a multi-byte sequence the sequence length and the accepted range of the
second byte; `none` for ASCII and for the bytes marked invalid (`xx`). -/
def firstInfo (c : UInt8) : Option (Nat × UInt8 × UInt8) :=
  if c < 0xC2 then none
  else if c ≤ 0xDF then some (2, 0x80, 0xBF)
  else if c = 0xE0 then some (3, 0xA0, 0xBF)
  else if c ≤ 0xEC then some (3, 0x80, 0xBF)
  else if c = 0xED then some (3, 0x80, 0x9F)
  else if c ≤ 0xEF then some (3, 0x80, 0xBF)
  else if c = 0xF0 then some (4, 0x90, 0xBF)
  else if c ≤ 0xF3 then some (4, 0x80, 0xBF)
  else if c = 0xF4 then some (4, 0x80, 0x8F)
  else none

/-- Number of bytes the decoder consumes for the rune that starts with byte `c`
and continues with `rest`: the sequence length when the sequence is complete
and well formed, and 1 for ASCII, for an invalid lead byte and for a short or
malformed sequence. -/
def runeWidth (c : UInt8) (rest : GoString) : Nat :=
  match firstInfo c with
  | none => 1
  | some (size, lo, hi) =>
    if rest.length + 1 < size then 1
    else
      match rest with
      | [] => 1
      | c1 :: r1 =>
        if c1 < lo || hi < c1 then 1
        else if size = 2 then 2
        else
          match r1 with
          | [] => 1
          | c2 :: r2 =>
            if !isCont c2 then 1
            else if size = 3 then 3
            else
              match r2 with
              | [] => 1
              | c3 :: _ => if !isCont c3 then 1 else 4

/-- Loop of `utf8.RuneCountInString`; the first argument is the number of bytes
of the current rune that are still to be stepped over. -/
def runeCountFrom : Nat → GoString → Nat
  | _, [] => 0
  | k + 1, _ :: t => runeCountFrom k t
  | 0, c :: t => 1 + runeCountFrom (runeWidth c t - 1) t

/-- Model of `utf8.RuneCountInString`. -/
def RuneCountInString (s : GoString) : Nat := runeCountFrom 0 s

/-- Model of `strings.HasPrefix`. -/
def HasPrefix (s pre : GoString) : Bool := pre.isPrefixOf s

/-- Scan of `strings.Replace` for a non-empty `old` and no limit on the number
of replacements: left to right, every occurrence of `old` that starts at the
scanning position is replaced and stepped over. The first argument is the
number of bytes of a matched occurrence still to be stepped over. -/
def replaceFrom (old new : GoString) : Nat → GoString → GoString
  | _, [] => []
  | k + 1, _ :: t => replaceFrom old new k t
  | 0, c :: t =>
    if old.isPrefixOf (c :: t) then new ++ replaceFrom old new (old.length - 1) t
    else c :: replaceFrom old new 0 t

/-- The case `old = ""` of `strings.Replace`, which the program never reaches
(it replaces `u:`, `/` and the quote): `new` is inserted after every UTF-8
sequence. The first argument is the number of bytes of the current sequence
still to be copied (0 at the start of a sequence). -/
def insertAfterRunes (new : GoString) : Nat → GoString → GoString
  | _, [] => []
  | r, c :: t =>
    let r1 := (if r = 0 then runeWidth c t else r) - 1
    c :: (if r1 = 0 then new ++ insertAfterRunes new 0 t else insertAfterRunes new r1 t)

/-- Model of `strings.Replace(s, old, new, -1)`. -/
def Replace (s old new : GoString) : GoString :=
  if old = [] then new ++ insertAfterRunes new 0 s else replaceFrom old new 0 s

/-- Model of `strings.Join`. -/
def Join : List GoString → GoString → GoString
  | [], _ => []
  | [a], _ => a
  | a :: b :: t, sep => a ++ sep ++ Join (b :: t) sep

/-- Loop of `strings.Split` for a non-empty separator: the field being read is
`cur`; the first argument is the number of bytes of a matched separator still
to be stepped over. -/
def splitFrom (sep : GoString) : Nat → GoString → GoString → List GoString
  | _, cur, [] => [cur]
  | k + 1, cur, _ :: t => splitFrom sep k cur t
  | 0, cur, c :: t =>
    if sep.isPrefixOf (c :: t) then cur :: splitFrom sep (sep.length - 1) [] t
    else splitFrom sep 0 (cur ++ [c]) t

/-- The case `sep = ""` of `strings.Split`, which the program never reaches
(it splits on the line feed): one string per UTF-8 sequence, an invalid byte
being sliced on its own. The first argument is the number of bytes of the
current sequence still to be copied. -/
def explode : Nat → GoString → GoString → List GoString
  | _, _, [] => []
  | r, cur, c :: t =>
    let w := if r = 0 then runeWidth c t else r
    if w - 1 = 0 then (cur ++ [c]) :: explode 0 [] t
    else explode (w - 1) (cur ++ [c]) t

/-- Model of `strings.Split`. -/
def Split (s sep : GoString) : List GoString :=
  if sep = [] then explode 0 [] s else splitFrom sep 0 [] s

/-! ## The literal encoder -/

/-- Embedding of `stringToSQLStatement`. -/
def stringToSQLStatement (s : GoString) : GoString :=
  if s = [] then utf8 "NULL"
  else [quote] ++ Replace s [quote] [quote, quote] ++ [quote]

/-! ## The line regexp

`regexp.Compile` of `(.*?) (.*?) \[(.*?)\] \/(.*)\/`. Package `regexp` returns
the leftmost match and, among the matches that start there, the one a
backtracking matcher finds first; the matcher below is that backtracking
search. `.` is any character but the line feed. The search runs over bytes:
every literal of the pattern is ASCII, an ASCII byte is never part of a longer
UTF-8 sequence, and the decoder turns any other byte into a character that `.`
accepts, so the groups are cut at the same places as in a search over runes. -/

/-- The lazy `.*?` followed by the rest of the pattern `k`: the shortest
extension of the group read so far (`acc`) is tried first. -/
def lazyAny {α : Type} (k : GoString → GoString → Option α) : GoString → GoString → Option α
  | acc, [] => k acc []
  | acc, c :: t =>
    match k acc (c :: t) with
    | some r => some r
    | none => if c = newline then none else lazyAny k (acc ++ [c]) t

/-- The greedy `.*` followed by the rest of the pattern `k`: the longest
extension of the group read so far (`acc`) is tried first. -/
def greedyAny {α : Type} (k : GoString → GoString → Option α) : GoString → GoString → Option α
  | acc, [] => k acc []
  | acc, c :: t =>
    match (if c = newline then none else greedyAny k (acc ++ [c]) t) with
    | some r => some r
    | none => k acc (c :: t)

/-- A literal piece of the pattern: the input behind it, when it is there. -/
def expect (lit s : GoString) : Option GoString :=
  if lit.isPrefixOf s then some (s.drop lit.length) else none

/-- The pattern matched at the start of `s`: the whole match and the four
groups. -/
def matchHere (s : GoString) : Option (List GoString) :=
  lazyAny (fun g1 s1 => (expect (utf8 " ") s1).bind fun s2 =>
    lazyAny (fun g2 s3 => (expect (utf8 " [") s3).bind fun s4 =>
      lazyAny (fun g3 s5 => (expect (utf8 "] /") s5).bind fun s6 =>
        greedyAny (fun g4 s7 => (expect (utf8 "/") s7).map fun _ =>
          [g1 ++ utf8 " " ++ g2 ++ utf8 " [" ++ g3 ++ utf8 "] /" ++ g4 ++ utf8 "/",
            g1, g2, g3, g4]) [] s6) [] s4) [] s2) [] s

/-- Model of `parseRegexp.FindStringSubmatch`: the match at the leftmost
position that has one, `nil` (the empty slice) when there is none. -/
def FindStringSubmatch : GoString → List GoString
  | [] => (matchHere []).getD []
  | c :: t =>
    match matchHere (c :: t) with
    | some r => r
    | none => FindStringSubmatch t

/-! ## The storage collaborator -/

/-- One row handed to the bulk copy into `cedict`: the five arguments of
`stmt.Exec`. -/
structure CedictRow where
  trad : GoString
  simp : GoString
  pinyin : GoString
  english : GoString
  runecount : Nat
deriving DecidableEq, Repr

/-- The tables the program creates. -/
inductive Table
  | cedict | md_entries | md_heteronyms | md_definitions
deriving DecidableEq, Repr

/-- The indices the program creates. -/
inductive Index
  | trad_index | simp_index | entries_title_index | entries_id_index
  | heteronyms_id_index | definitions_id_index
deriving DecidableEq, Repr

/-- A statement passed to `exec`. The fixed texts are named; an insert built by
`fmt.Sprintf` is kept as its arguments, in the order of the format string. The
counters are Go `int`s that start at 1 and grow by one per row, so they stay
far below `2^63` on any input that fits in memory and are natural numbers
here. -/
inductive Stmt
  | createTable (t : Table)
  | createIndex (i : Index)
  | insertEntry (id : Nat) (title radical : GoString)
      (stroke_count non_radical_stroke_count : Int)
  | insertHeteronym (id entry_id idx : Nat) (pinyin bopomofo bopomofo2 : GoString)
  | insertDefinition (id heteronym_id idx : Nat)
      (defn quotes examples type link synonyms antonyms : GoString)
deriving DecidableEq, Repr

/-- What the program asks of the database, in the order it asks. -/
inductive Event
  | exec (s : Stmt)
  | begin
  | prepare
  | copyRow (r : CedictRow)
  | copyFlush
  | commit
  | closeStmt
deriving DecidableEq, Repr

/-- Reasons for a run-time panic. -/
inductive Panic
  | storage
  | indexOutOfRange
  | runecountUnequal (trad simp : GoString)
  | nilPointer
deriving DecidableEq, Repr

/-- How a function ended. -/
inductive Outcome
  | returned
  | panicked (p : Panic)
deriving DecidableEq, Repr

/-- The events of a run and how it ended. -/
structure Run where
  trace : List Event
  outcome : Outcome
deriving DecidableEq, Repr

/-- The database: given the requests it has served so far, does it serve the
next one without an error? Requests made before a function starts are part of
this function, so every run starts from the empty trace. -/
abbrev Storage := List Event → Event → Bool

/-- A database that serves every request. -/
def acceptAll : Storage := fun _ _ => true

/-- A loop state or the panic that ended the run, with the trace so far. -/
abbrev Step (σ : Type) := Except (Panic × List Event) σ

/-- A request whose error makes the program panic. -/
def emit (ok : Storage) (tr : List Event) (e : Event) : Step (List Event) :=
  if ok tr e then .ok (tr ++ [e]) else .error (.storage, tr)

/-! ## The lexicon load -/

/-- Body of the loop over the lines in `addCedictData`. -/
def cedictLine (ok : Storage) (line : GoString) (tr : List Event) : Step (List Event) :=
  if line ≠ [] ∧ ¬ HasPrefix line (utf8 "#") then
    let parseResult := FindStringSubmatch line
    match parseResult[1]? with
    | none => .error (.indexOutOfRange, tr)
    | some trad =>
      let runecount := RuneCountInString trad
      match parseResult[2]? with
      | none => .error (.indexOutOfRange, tr)
      | some simp =>
        if runecount ≠ RuneCountInString simp then .error (.runecountUnequal trad simp, tr)
        else
          match parseResult[3]?, parseResult[4]? with
          | some pinyin, some english =>
            emit ok tr (.copyRow
              { trad := trad
                simp := simp
                pinyin := Replace pinyin (utf8 "u:") (utf8 "v")
                english := Replace english (utf8 "/") (utf8 " / ")
                runecount := runecount })
          | _, _ => .error (.indexOutOfRange, tr)
  else .ok tr

/-- The loop over the lines in `addCedictData`. -/
def cedictLoop (ok : Storage) : List GoString → List Event → Step (List Event)
  | [], tr => .ok tr
  | line :: rest, tr =>
    match cedictLine ok line tr with
    | .ok tr1 => cedictLoop ok rest tr1
    | .error e => .error e

/-- What `addCedictData` does with the lines of the file once the copy
statement is prepared, up to its return: the loop, the flush, the commit (its
error is not looked at) and the two indices. -/
def cedictBody (ok : Storage) (lines : List GoString) (tr : List Event) : Step (List Event) := do
  let tr ← cedictLoop ok lines tr
  let tr ← emit ok tr .copyFlush
  let tr := tr ++ [.commit]
  let tr ← emit ok tr (.exec (.createIndex .trad_index))
  emit ok tr (.exec (.createIndex .simp_index))

/-- What `addCedictData` does after the statement is prepared, for the lines of
the file; `stmt.Close` is deferred, so it runs on return and on panic. -/
def loadLines (ok : Storage) (lines : List GoString) (tr : List Event) : Run :=
  match cedictBody ok lines tr with
  | .error (p, tr1) => ⟨tr1 ++ [.closeStmt], .panicked p⟩
  | .ok tr1 => ⟨tr1 ++ [.closeStmt], .returned⟩

/-- Embedding of `addCedictData`; `file` is the result of `ioutil.ReadFile`,
`none` when it failed. -/
def addCedictData (ok : Storage) (file : Option GoString) : Run :=
  match file with
  | none => ⟨[], .returned⟩
  | some data =>
    match (do
      let tr ← emit ok [] (.exec (.createTable .cedict))
      let tr ← emit ok tr .begin
      emit ok tr .prepare : Step (List Event)) with
    | .error (p, tr) => ⟨tr, .panicked p⟩
    | .ok tr => loadLines ok (Split data [newline]) tr

/-- The rows streamed to the bulk copy. -/
def copiedRows (tr : List Event) : List CedictRow :=
  tr.filterMap fun e => match e with
    | .copyRow r => some r
    | _ => none

/-- The rows a commit made durable: the streamed rows when the commit step was
reached, none otherwise. -/
def committedRows (tr : List Event) : List CedictRow :=
  if Event.commit ∈ tr then copiedRows tr else []

/-! ## The entry-dump load -/

/-- Modelled from the spec: the type `moedict.Definition` of the imported
package `blueMandoTools/moedict` (a sense: definition text, quotation list,
example list, type tag, link list, synonym and antonym text), with the field
names `addMoedictData` reads. -/
structure Definition where
  Def : GoString
  Quote : List GoString
  Example : List GoString
  DefType : GoString
  Link : List GoString
  Synonyms : GoString
  Antonyms : GoString
deriving DecidableEq, Repr

/-- Modelled from the spec: the type `moedict.Heteronym` of the imported
package (a variant: its romanizations and its ordered senses), with the field
names `addMoedictData` reads. -/
structure Heteronym where
  Pinyin : GoString
  Bopomofo : GoString
  Bopomofo2 : GoString
  Definitions : List Definition
deriving DecidableEq, Repr

/-- Modelled from the spec: the type `moedict.Entry` of the imported package
(title, radical, the two stroke counts and the ordered variants), with the
field names `addMoedictData` reads. -/
structure Entry where
  Title : GoString
  Radical : GoString
  Stroke_count : Int
  Non_radical_stroke_count : Int
  Heteronyms : List Heteronym
deriving DecidableEq, Repr

/-- An error value of `json.Unmarshal`. -/
structure DecodeError where
  msg : String
deriving DecidableEq, Repr

/-- The delimiter of the joined list fields. -/
def listSep : GoString := utf8 "|||"

/-- The insert statement of one sense. -/
def definitionStmt (definitionsId heteronymId idx_d : Nat) (d : Definition) : Stmt :=
  let links := Join d.Link listSep
  let quotes := Join d.Quote listSep
  let examples := Join d.Example listSep
  .insertDefinition definitionsId heteronymId idx_d
    (stringToSQLStatement d.Def)
    (stringToSQLStatement quotes)
    (stringToSQLStatement examples)
    (stringToSQLStatement d.DefType)
    (stringToSQLStatement links)
    (stringToSQLStatement d.Synonyms)
    (stringToSQLStatement d.Antonyms)

/-- The insert statement of one variant. -/
def heteronymStmt (heteronymId entryId idx_h : Nat) (h : Heteronym) : Stmt :=
  .insertHeteronym heteronymId entryId idx_h
    (stringToSQLStatement h.Pinyin)
    (stringToSQLStatement h.Bopomofo)
    (stringToSQLStatement h.Bopomofo2)

/-- The insert statement of one entry. -/
def entryStmt (entryId : Nat) (e : Entry) : Stmt :=
  .insertEntry entryId
    (stringToSQLStatement e.Title)
    (stringToSQLStatement e.Radical)
    e.Stroke_count
    e.Non_radical_stroke_count

/-- The loop over `h.Definitions`; the state is `definitionsId` and the
trace. -/
def definitionsLoop (ok : Storage) (heteronymId : Nat) :
    List Definition → Nat → Nat → List Event → Step (Nat × List Event)
  | [], _, definitionsId, tr => .ok (definitionsId, tr)
  | d :: ds, idx_d, definitionsId, tr =>
    match emit ok tr (.exec (definitionStmt definitionsId heteronymId idx_d d)) with
    | .error e => .error e
    | .ok tr1 => definitionsLoop ok heteronymId ds (idx_d + 1) (definitionsId + 1) tr1

/-- The loop over `e.Heteronyms`; the state is `heteronymId`, `definitionsId`
and the trace. -/
def heteronymsLoop (ok : Storage) (entryId : Nat) :
    List Heteronym → Nat → Nat → Nat → List Event → Step (Nat × Nat × List Event)
  | [], _, heteronymId, definitionsId, tr => .ok (heteronymId, definitionsId, tr)
  | h :: hs, idx_h, heteronymId, definitionsId, tr =>
    match emit ok tr (.exec (heteronymStmt heteronymId entryId idx_h h)) with
    | .error e => .error e
    | .ok tr1 =>
      match definitionsLoop ok heteronymId h.Definitions 0 definitionsId tr1 with
      | .error e => .error e
      | .ok (definitionsId1, tr2) =>
        heteronymsLoop ok entryId hs (idx_h + 1) (heteronymId + 1) definitionsId1 tr2

/-- The loop over `entries`, a slice of pointers: reading a field through a nil
pointer panics. The state is the three counters and the trace. -/
def entriesLoop (ok : Storage) :
    List (Option Entry) → Nat → Nat → Nat → List Event → Step (Nat × Nat × Nat × List Event)
  | [], entryId, heteronymId, definitionsId, tr => .ok (entryId, heteronymId, definitionsId, tr)
  | none :: _, _, _, _, tr => .error (.nilPointer, tr)
  | some e :: es, entryId, heteronymId, definitionsId, tr =>
    match emit ok tr (.exec (entryStmt entryId e)) with
    | .error err => .error err
    | .ok tr1 =>
      match heteronymsLoop ok entryId e.Heteronyms 0 heteronymId definitionsId tr1 with
      | .error err => .error err
      | .ok (heteronymId1, definitionsId1, tr2) =>
        entriesLoop ok es (entryId + 1) heteronymId1 definitionsId1 tr2

/-- Embedding of `addMoedictData`. `file` is the result of `ioutil.ReadFile`
(`none` when it failed); `unmarshal` is `json.Unmarshal` into the empty slice
`entries`: it gives the slice afterwards and the error value, which the
program does not look at. -/
def addMoedictData (ok : Storage) (file : Option GoString)
    (unmarshal : GoString → List (Option Entry) × Option DecodeError) : Run :=
  match file with
  | none => ⟨[], .returned⟩
  | some data =>
    let entries := (unmarshal data).1
    match (do
      let tr ← emit ok [] (.exec (.createTable .md_entries))
      let tr ← emit ok tr (.exec (.createTable .md_heteronyms))
      let tr ← emit ok tr (.exec (.createTable .md_definitions))
      let (_, _, _, tr) ← entriesLoop ok entries 1 1 1 tr
      let tr ← emit ok tr (.exec (.createIndex .entries_title_index))
      let tr ← emit ok tr (.exec (.createIndex .entries_id_index))
      let tr ← emit ok tr (.exec (.createIndex .heteronyms_id_index))
      emit ok tr (.exec (.createIndex .definitions_id_index)) : Step (List Event)) with
    | .error (p, tr) => ⟨tr, .panicked p⟩
    | .ok tr => ⟨tr, .returned⟩

/-- The insert statements of a trace, in the order they were issued. -/
def insertStmts (tr : List Event) : List Stmt :=
  tr.filterMap fun e => match e with
    | .exec (.insertEntry i t r s n) => some (.insertEntry i t r s n)
    | .exec (.insertHeteronym i e x p b c) => some (.insertHeteronym i e x p b c)
    | .exec (.insertDefinition i h x d q e t l s a) => some (.insertDefinition i h x d q e t l s a)
    | _ => none

/-- The statements of a trace that create a table. -/
def createdTables (tr : List Event) : List Table :=
  tr.filterMap fun e => match e with
    | .exec (.createTable t) => some t
    | _ => none

/-! ## Auxiliary definitions for the statements and proofs -/

/-- Doubling of the quotes, byte by byte. -/
def doubleQuotes (s : GoString) : GoString :=
  s.flatMap fun b => if b = quote then [quote, quote] else [b]

/-- A decoder for the literals of `stringToSQLStatement`; it is not part of
the program. The first and the last byte are removed and every pair of
adjacent quotes, scanned left to right, becomes one quote. -/
def decodeLiteral (e : GoString) : GoString :=
  Replace (e.drop 1).dropLast [quote, quote] [quote]

/-- Lengths of the maximal runs of quotes of a string, left to right; the
first argument is the length of the run being read. -/
def quoteRunsFrom : Nat → GoString → List Nat
  | n, [] => if n = 0 then [] else [n]
  | n, c :: t =>
    if c = quote then quoteRunsFrom (n + 1) t
    else (if n = 0 then [] else [n]) ++ quoteRunsFrom 0 t

/-- Lengths of the maximal runs of quotes of a string. -/
def quoteRuns (s : GoString) : List Nat := quoteRunsFrom 0 s

/-- The scan of the substitution `u:` to `v`. -/
def subst (s : GoString) : GoString := replaceFrom [0x75, 0x3A] [0x76] 0 s

/-- The byte `|`. -/
def bar : UInt8 := 0x7C

/-- The scan of `strings.Split` on `|||`. -/
def splitBars (cur s : GoString) : List GoString := splitFrom [bar, bar, bar] 0 cur s

/-- A list of requests made one after the other, each through `emit`. -/
def emitAll (ok : Storage) : List Event → List Event → Step (List Event)
  | tr, [] => .ok tr
  | tr, e :: es =>
    match emit ok tr e with
    | .error x => .error x
    | .ok tr1 => emitAll ok tr1 es

/-- Number of senses of a list of variants. -/
def countSenses (hs : List Heteronym) : Nat := (hs.map fun h => h.Definitions.length).sum

/-- Number of variants of a list of entries. -/
def countHeteronyms (es : List Entry) : Nat := (es.map fun e => e.Heteronyms.length).sum

/-- Number of senses of a list of entries. -/
def countDefinitions (es : List Entry) : Nat := (es.map fun e => countSenses e.Heteronyms).sum

/-- The statements the loop over the senses of one variant asks for. -/
def definitionsOut (heteronymId : Nat) : List Definition → Nat → Nat → List Stmt
  | [], _, _ => []
  | d :: ds, idx_d, definitionsId =>
    definitionStmt definitionsId heteronymId idx_d d ::
      definitionsOut heteronymId ds (idx_d + 1) (definitionsId + 1)

/-- The statements the loop over the variants of one entry asks for. -/
def heteronymsOut (entryId : Nat) : List Heteronym → Nat → Nat → Nat → List Stmt
  | [], _, _, _ => []
  | h :: hs, idx_h, heteronymId, definitionsId =>
    heteronymStmt heteronymId entryId idx_h h ::
      (definitionsOut heteronymId h.Definitions 0 definitionsId ++
        heteronymsOut entryId hs (idx_h + 1) (heteronymId + 1)
          (definitionsId + h.Definitions.length))

/-- The statements the loop over the entries asks for. -/
def entriesOut : List Entry → Nat → Nat → Nat → List Stmt
  | [], _, _, _ => []
  | e :: es, entryId, heteronymId, definitionsId =>
    entryStmt entryId e ::
      (heteronymsOut entryId e.Heteronyms 0 heteronymId definitionsId ++
        entriesOut es (entryId + 1) (heteronymId + e.Heteronyms.length)
          (definitionsId + countSenses e.Heteronyms))

/-- Every request of a complete run of `addMoedictData` on the entries `es`. -/
def moedictEvents (es : List Entry) : List Event :=
  .exec (.createTable .md_entries) :: .exec (.createTable .md_heteronyms) ::
    .exec (.createTable .md_definitions) ::
    ((entriesOut es 1 1 1).map Event.exec ++
      [.exec (.createIndex .entries_title_index), .exec (.createIndex .entries_id_index),
        .exec (.createIndex .heteronyms_id_index), .exec (.createIndex .definitions_id_index)])

/-- The identifier a row is inserted with. -/
def Stmt.rowId : Stmt → Nat
  | .insertEntry id _ _ _ _ => id
  | .insertHeteronym id _ _ _ _ _ => id
  | .insertDefinition id _ _ _ _ _ _ _ _ _ => id
  | _ => 0

/-- The text literals a row is inserted with. -/
def Stmt.texts : Stmt → List GoString
  | .insertEntry _ t r _ _ => [t, r]
  | .insertHeteronym _ _ _ p b c => [p, b, c]
  | .insertDefinition _ _ _ d q e t l s a => [d, q, e, t, l, s, a]
  | _ => []

/-- The rows inserted into `md_entries`. -/
def entryRows (l : List Stmt) : List Stmt :=
  l.filter fun s => match s with
    | .insertEntry _ _ _ _ _ => true
    | _ => false

/-- The rows inserted into `md_heteronyms`. -/
def heteronymRows (l : List Stmt) : List Stmt :=
  l.filter fun s => match s with
    | .insertHeteronym _ _ _ _ _ _ => true
    | _ => false

/-- The rows inserted into `md_definitions`. -/
def definitionRows (l : List Stmt) : List Stmt :=
  l.filter fun s => match s with
    | .insertDefinition _ _ _ _ _ _ _ _ _ _ => true
    | _ => false

/-- The variants of a list of entries, depth first in input order. -/
def allHeteronyms (es : List Entry) : List Heteronym := es.flatMap fun e => e.Heteronyms

/-- The senses of a list of variants, depth first in input order. -/
def allSenses (hs : List Heteronym) : List Definition := hs.flatMap fun h => h.Definitions

/-- The senses of a list of entries, depth first in input order. -/
def allDefinitions (es : List Entry) : List Definition := allSenses (allHeteronyms es)

/-- The row of `md_entries`, `md_heteronyms` or `md_definitions` a statement
inserts refers to its parent by this column (`entry_id`, `heteronym_id`). -/
def Stmt.parentId : Stmt → Nat
  | .insertHeteronym _ entry_id _ _ _ _ => entry_id
  | .insertDefinition _ heteronym_id _ _ _ _ _ _ _ _ => heteronym_id
  | _ => 0

/-- The column `idx` of an inserted row. -/
def Stmt.idx : Stmt → Nat
  | .insertHeteronym _ _ idx _ _ _ => idx
  | .insertDefinition _ _ idx _ _ _ _ _ _ _ => idx
  | _ => 0

/-- The rows of the senses of one variant, column by column: the variant row
has identifier `hid`, which every sense row carries as `heteronym_id`; `d0`
senses come before the first one in the corpus; `idx` is the position. -/
def senseRows (hid d0 : Nat) (ds : List Definition) : List Stmt :=
  ds.mapIdx fun m d =>
    Stmt.insertDefinition (d0 + m + 1) hid m
      (stringToSQLStatement d.Def)
      (stringToSQLStatement (Join d.Quote listSep))
      (stringToSQLStatement (Join d.Example listSep))
      (stringToSQLStatement d.DefType)
      (stringToSQLStatement (Join d.Link listSep))
      (stringToSQLStatement d.Synonyms)
      (stringToSQLStatement d.Antonyms)

/-- The rows of the variants of one entry, each followed by the rows of its
senses, column by column: the entry row has identifier `eid`, which every
variant row carries as `entry_id`; `h0` variants and `d0` senses come before
the first ones in the corpus; `idx` is the position. -/
def variantRows (eid h0 d0 : Nat) (hs : List Heteronym) : List Stmt :=
  (hs.mapIdx fun j h =>
    Stmt.insertHeteronym (h0 + j + 1) eid j
        (stringToSQLStatement h.Pinyin)
        (stringToSQLStatement h.Bopomofo)
        (stringToSQLStatement h.Bopomofo2) ::
      senseRows (h0 + j + 1) (d0 + countSenses (hs.take j)) h.Definitions).flatten

/-- The rows of a list of entries in document order, column by column: every
entry row is followed by the rows of its variants, every variant row by the
rows of its senses; a child row carries the identifier of the row of its
parent and its 0-based position under that parent. -/
def specRows (es : List Entry) : List Stmt :=
  (es.mapIdx fun k e =>
    Stmt.insertEntry (k + 1)
        (stringToSQLStatement e.Title)
        (stringToSQLStatement e.Radical)
        e.Stroke_count
        e.Non_radical_stroke_count ::
      variantRows (k + 1) (countHeteronyms (es.take k)) (countDefinitions (es.take k))
        e.Heteronyms).flatten

/-- The insert statements `addMoedictData` issues, in order, when decoding
leaves the slice `ps` (a nil pointer is `none`). -/
def issuedFrom (ok : Storage) (data : GoString) (ps : List (Option Entry))
    (err : Option DecodeError) : List Stmt :=
  insertStmts (addMoedictData ok (some data) (fun _ => (ps, err))).trace

/-- The insert statements `addMoedictData` issues, in order, when the file
decodes to the entries `es`. -/
def issuedInserts (ok : Storage) (data : GoString) (es : List Entry)
    (err : Option DecodeError) : List Stmt :=
  insertStmts (addMoedictData ok (some data) (fun _ => (es.map some, err))).trace

/-- A line that the loop does not skip and whose match has traditional and
simplified forms of unequal rune counts. -/
def unequalLine (l : GoString) : Bool :=
  decide (l ≠ []) && !HasPrefix l (utf8 "#") &&
    match (FindStringSubmatch l)[1]?, (FindStringSubmatch l)[2]? with
    | some t, some s => RuneCountInString t != RuneCountInString s
    | _, _ => false

/-- The trace a step ended with. -/
def stepTrace : Step (List Event) → List Event
  | .ok tr => tr
  | .error (_, tr) => tr

/-- A row with traditional and simplified forms of equal rune counts, the
count being the one stored. -/
def consistentRow (r : CedictRow) : Prop :=
  RuneCountInString r.trad = RuneCountInString r.simp ∧ r.runecount = RuneCountInString r.trad

/-- The events before the loop over the lines. -/
def cedictPrologue : List Event := [.exec (.createTable .cedict), .begin, .prepare]

/-- The traditional and simplified forms of the match of a line (empty when
there is no match). -/
def lineForms (l : GoString) : GoString × GoString :=
  ((FindStringSubmatch l)[1]?.getD [], (FindStringSubmatch l)[2]?.getD [])

/-- The events after the loop over the lines, up to the return. -/
def cedictEpilogue : List Event :=
  [.copyFlush, .commit, .exec (.createIndex .trad_index), .exec (.createIndex .simp_index)]

/-! ## Theorems -/

/-! ### The literal encoder -/

theorem utf8_NULL : utf8 "NULL" = [0x4E, 0x55, 0x4C, 0x4C] := by decide

theorem utf8_ucolon : utf8 "u:" = [0x75, 0x3A] := by decide

theorem utf8_v : utf8 "v" = [0x76] := by decide

theorem replace_quote_cons (c : UInt8) (t : GoString) :
    replaceFrom [quote] [quote, quote] 0 (c :: t) =
      (if c = quote then [quote, quote] else [c]) ++ replaceFrom [quote] [quote, quote] 0 t := by
  by_cases h : c = quote
  · subst h; simp [replaceFrom, List.isPrefixOf]
  · have h2 : ¬ quote = c := fun e => h e.symm
    simp [replaceFrom, List.isPrefixOf, h, h2]

theorem replace_quote_eq (s : GoString) :
    Replace s [quote] [quote, quote] = doubleQuotes s := by
  have h : ∀ s : GoString, replaceFrom [quote] [quote, quote] 0 s = doubleQuotes s := by
    intro s
    induction s with
    | nil => simp [replaceFrom, doubleQuotes]
    | cons c t ih => rw [replace_quote_cons, ih]; simp [doubleQuotes]
  simp [Replace, h]

theorem doubleQuotes_length (s : GoString) :
    (doubleQuotes s).length = s.length + s.count quote := by
  induction s with
  | nil => simp [doubleQuotes]
  | cons c t ih =>
    have : doubleQuotes (c :: t) = (if c = quote then [quote, quote] else [c]) ++ doubleQuotes t := by
      simp [doubleQuotes]
    rw [this, List.length_append, ih]
    by_cases h : c = quote
    · subst h; simp; omega
    · have h2 : ¬ quote = c := fun e => h e.symm
      simp [h, h2, List.count_cons]
      omega

theorem stringToSQLStatement_cons (c : UInt8) (t : GoString) :
    stringToSQLStatement (c :: t) = quote :: (doubleQuotes (c :: t) ++ [quote]) := by
  simp [stringToSQLStatement, replace_quote_eq]

theorem interior_literal (c : UInt8) (t : GoString) :
    ((stringToSQLStatement (c :: t)).drop 1).dropLast = doubleQuotes (c :: t) := by
  rw [stringToSQLStatement_cons]
  simp

theorem collapse_doubleQuotes (s : GoString) :
    replaceFrom [quote, quote] [quote] 0 (doubleQuotes s) = s := by
  induction s with
  | nil => simp [doubleQuotes, replaceFrom]
  | cons c t ih =>
    have e : doubleQuotes (c :: t) = (if c = quote then [quote, quote] else [c]) ++ doubleQuotes t := by
      simp [doubleQuotes]
    rw [e]
    by_cases h : c = quote
    · subst h
      simp [replaceFrom, List.isPrefixOf, ih]
    · have h2 : ¬ quote = c := fun e => h e.symm
      simp [replaceFrom, List.isPrefixOf, ih, h, h2]

theorem decode_literal (c : UInt8) (t : GoString) :
    decodeLiteral (stringToSQLStatement (c :: t)) = c :: t := by
  unfold decodeLiteral
  rw [interior_literal]
  simp [Replace, collapse_doubleQuotes]

theorem quoteRuns_doubleQuotes (s : GoString) :
    ∀ n, Even n → ∀ m ∈ quoteRunsFrom n (doubleQuotes s), Even m := by
  induction s with
  | nil =>
    intro n hn m hm
    by_cases h0 : n = 0
    · simp [doubleQuotes, quoteRunsFrom, h0] at hm
    · simp [doubleQuotes, quoteRunsFrom, h0] at hm
      rw [hm]; exact hn
  | cons c t ih =>
    intro n hn m hm
    have e : doubleQuotes (c :: t) = (if c = quote then [quote, quote] else [c]) ++ doubleQuotes t := by
      simp [doubleQuotes]
    rw [e] at hm
    by_cases h : c = quote
    · subst h
      simp only [if_true, List.cons_append, List.nil_append, quoteRunsFrom] at hm
      have hn2 : Even (n + 1 + 1) := by
        obtain ⟨k, hk⟩ := hn
        exact ⟨k + 1, by omega⟩
      exact ih _ hn2 m hm
    · simp only [h, if_false, List.cons_append, List.nil_append, quoteRunsFrom,
        List.mem_append] at hm
      rcases hm with hm | hm
      · by_cases h0 : n = 0
        · simp [h0] at hm
        · simp [h0] at hm
          rw [hm]; exact hn
      · exact ih 0 (by decide) m hm

/-- C1: `stringToSQLStatement` gives the literal `NULL` for the empty string;
for any other string it gives the string with every single quote doubled,
between one leading and one trailing single quote, so its length is the length
of the string plus 2 plus the number of single quotes in it. -/
theorem stringToSQLStatement_spec (s : GoString) :
    stringToSQLStatement s =
        (if s = [] then utf8 "NULL"
         else [quote] ++ s.flatMap (fun b => if b = quote then [quote, quote] else [b]) ++ [quote]) ∧
      (stringToSQLStatement s).length =
        (if s = [] then 4 else s.length + 2 + s.count quote) := by
  cases s with
  | nil => exact ⟨by simp [stringToSQLStatement], by decide⟩
  | cons c t =>
    refine ⟨?_, ?_⟩
    · rw [stringToSQLStatement_cons]; simp [doubleQuotes]
    · rw [stringToSQLStatement_cons]
      simp only [List.length_cons, List.length_append, doubleQuotes_length, List.length_nil]
      simp
      omega

/-- C10: for a non-empty string the literal decodes back to the string (first
and last byte removed, pairs of adjacent quotes collapsed left to right); every
maximal run of quotes inside the literal has even length; two non-empty strings
with the same literal are equal; the literal is never the bare marker `NULL`,
and the string `NULL` encodes to `'NULL'`. -/
theorem stringToSQLStatement_decode (s : GoString) (hs : s ≠ []) :
    decodeLiteral (stringToSQLStatement s) = s ∧
      (∀ n ∈ quoteRuns ((stringToSQLStatement s).drop 1).dropLast, Even n) ∧
      (∀ t : GoString, t ≠ [] → stringToSQLStatement s = stringToSQLStatement t → s = t) ∧
      stringToSQLStatement s ≠ utf8 "NULL" ∧
      stringToSQLStatement (utf8 "NULL") = utf8 "'NULL'" := by
  obtain ⟨c, t, rfl⟩ := List.exists_cons_of_ne_nil hs
  refine ⟨decode_literal c t, ?_, ?_, ?_, by decide⟩
  · rw [interior_literal]
    exact quoteRuns_doubleQuotes _ 0 (by decide)
  · intro u hu h
    obtain ⟨d, v, rfl⟩ := List.exists_cons_of_ne_nil hu
    have := congrArg decodeLiteral h
    rwa [decode_literal, decode_literal] at this
  · rw [stringToSQLStatement_cons, utf8_NULL]
    intro h
    have := (List.cons.inj h).1
    exact absurd this (by decide)

/-- Witness for C10 at the string `it's`. -/
theorem stringToSQLStatement_decode_witness :
    utf8 "it's" ≠ [] ∧ decodeLiteral (stringToSQLStatement (utf8 "it's")) = utf8 "it's" :=
  ⟨by decide, (stringToSQLStatement_decode (utf8 "it's") (by decide)).1⟩

/-! ### The romanization substitution -/

theorem subst_nil : subst [] = [] := by simp [subst, replaceFrom]

theorem subst_match (t : GoString) : subst (0x75 :: 0x3A :: t) = 0x76 :: subst t := by
  simp [subst, replaceFrom, List.isPrefixOf]

theorem subst_other (c : UInt8) (t : GoString)
    (h : ¬ (c = 0x75 ∧ t.head? = some 0x3A)) : subst (c :: t) = c :: subst t := by
  have hp : List.isPrefixOf [(0x75 : UInt8), 0x3A] (c :: t) = false := by
    cases t with
    | nil => simp [List.isPrefixOf]
    | cons d t =>
      simp only [List.head?_cons, Option.some.injEq] at h
      simp only [List.isPrefixOf, Bool.and_true, Bool.and_eq_false_imp, beq_iff_eq,
        beq_eq_false_iff_ne, ne_eq]
      intro hc hd
      exact h ⟨hc.symm, hd.symm⟩
  simp [subst, replaceFrom, hp]

theorem subst_head (s : GoString) :
    (subst s).head? = some 0x3A → s.head? = some 0x3A := by
  cases s with
  | nil => simp [subst_nil]
  | cons c t =>
    by_cases h : c = 0x75 ∧ t.head? = some 0x3A
    · obtain ⟨hc, ht⟩ := h
      cases t with
      | nil => simp at ht
      | cons d t =>
        simp only [List.head?_cons, Option.some.injEq] at ht
        subst hc; subst ht
        rw [subst_match]
        intro h
        simp only [List.head?_cons, Option.some.injEq] at h
        exact absurd h (by decide)
    · rw [subst_other c t h]
      simp

theorem subst_facts (n : Nat) :
    ∀ s : GoString, s.length ≤ n →
      subst (subst s) = subst s ∧ ¬ [(0x75 : UInt8), 0x3A] <:+: subst s := by
  induction n with
  | zero =>
    intro s hs
    have : s = [] := List.eq_nil_of_length_eq_zero (by omega)
    subst this
    simp [subst_nil, List.infix_nil]
  | succ n ih =>
    intro s hs
    cases s with
    | nil => simp [subst_nil, List.infix_nil]
    | cons c t =>
      by_cases h : c = 0x75 ∧ t.head? = some 0x3A
      · obtain ⟨hc, ht⟩ := h
        cases t with
        | nil => simp at ht
        | cons d t =>
          simp only [List.head?_cons, Option.some.injEq] at ht
          subst hc; subst ht
          have hl : t.length ≤ n := by simp at hs; omega
          obtain ⟨i1, i2⟩ := ih t hl
          rw [subst_match]
          have hv : ¬ ((0x76 : UInt8) = 0x75 ∧ (subst t).head? = some 0x3A) := by
            intro h; exact absurd h.1 (by decide)
          refine ⟨by rw [subst_other _ _ hv, i1], ?_⟩
          rw [List.infix_cons_iff]
          rintro (hp | hi)
          · obtain ⟨r, hr⟩ := hp
            simp only [List.cons_append, List.nil_append, List.cons.injEq] at hr
            exact absurd hr.1 (by decide)
          · exact i2 hi
      · have hl : t.length ≤ n := by simp at hs; omega
        obtain ⟨i1, i2⟩ := ih t hl
        rw [subst_other c t h]
        have h2 : ¬ (c = 0x75 ∧ (subst t).head? = some 0x3A) := by
          rintro ⟨hc, hh⟩
          exact h ⟨hc, subst_head t hh⟩
        refine ⟨by rw [subst_other _ _ h2, i1], ?_⟩
        rw [List.infix_cons_iff]
        rintro (hp | hi)
        · apply h2
          obtain ⟨r, hr⟩ := hp
          simp only [List.cons_append, List.nil_append, List.cons.injEq] at hr
          obtain ⟨hc, hr⟩ := hr
          refine ⟨hc.symm, ?_⟩
          rw [← hr]; simp
        · exact i2 hi

/-- C9: the substitution of `u:` by `v` applied twice gives what it gives
applied once, and its result never contains `u:`. -/
theorem romanization_idempotent (r : GoString) :
    Replace (Replace r (utf8 "u:") (utf8 "v")) (utf8 "u:") (utf8 "v") =
        Replace r (utf8 "u:") (utf8 "v") ∧
      ¬ utf8 "u:" <:+: Replace r (utf8 "u:") (utf8 "v") := by
  have e : ∀ s : GoString, Replace s (utf8 "u:") (utf8 "v") = subst s := by
    intro s
    rw [utf8_ucolon, utf8_v]
    simp [Replace, subst]
  rw [e, e, utf8_ucolon]
  exact subst_facts r.length r (Nat.le_refl _)

/-! ### Joining and splitting on the delimiter -/

theorem splitBars_nil (cur : GoString) : splitBars cur [] = [cur] := by
  simp [splitBars, splitFrom]

theorem splitBars_match (cur t : GoString) :
    splitBars cur (bar :: bar :: bar :: t) = cur :: splitBars [] t := by
  simp [splitBars, splitFrom, List.isPrefixOf]

theorem splitBars_other (cur : GoString) (c : UInt8) (t : GoString)
    (h : ¬ [bar, bar, bar] <+: c :: t) : splitBars cur (c :: t) = splitBars (cur ++ [c]) t := by
  have hp : List.isPrefixOf [bar, bar, bar] (c :: t) = false := by
    rw [Bool.eq_false_iff]
    intro hh
    exact h (List.isPrefixOf_iff_prefix.mp hh)
  simp [splitBars, splitFrom, hp]

theorem splitBars_no_sep (s : GoString) :
    ∀ cur : GoString, ¬ [bar, bar, bar] <:+: s → splitBars cur s = [cur ++ s] := by
  induction s with
  | nil => intro cur _; simp [splitBars_nil]
  | cons c t ih =>
    intro cur h
    have h1 : ¬ [bar, bar, bar] <+: c :: t := fun hp => h hp.isInfix
    have h2 : ¬ [bar, bar, bar] <:+: t := fun hi => h (List.infix_cons hi)
    rw [splitBars_other cur c t h1, ih _ h2]
    simp

theorem splitBars_field (e : GoString) (rest : GoString) :
    ∀ cur : GoString,
      (∀ u : GoString, u ≠ [] → u <:+ e → ¬ [bar, bar, bar] <+: u ++ ([bar, bar, bar] ++ rest)) →
      splitBars cur (e ++ ([bar, bar, bar] ++ rest)) = (cur ++ e) :: splitBars [] rest := by
  induction e with
  | nil =>
    intro cur _
    simp [splitBars_match]
  | cons c t ih =>
    intro cur h
    have h1 : ¬ [bar, bar, bar] <+: c :: (t ++ ([bar, bar, bar] ++ rest)) :=
      h (c :: t) (by simp) (List.suffix_refl _)
    rw [List.cons_append, splitBars_other cur c _ h1, ih]
    · simp
    · intro u hu hsuf
      exact h u hu (hsuf.trans (List.suffix_cons c t))

theorem no_early_sep (e rest : GoString) (hsep : ¬ [bar, bar, bar] <:+: e)
    (hend : e.getLast? ≠ some bar) :
    ∀ u : GoString, u ≠ [] → u <:+ e → ¬ [bar, bar, bar] <+: u ++ ([bar, bar, bar] ++ rest) := by
  intro u hu hsuf hp
  obtain ⟨pre, hpre⟩ := hsuf
  obtain ⟨r, hr⟩ := hp
  match u, hu with
  | [a], _ =>
    simp only [List.cons_append, List.nil_append, List.cons.injEq] at hr
    apply hend
    rw [← hpre, ← hr.1]
    simp
  | [a, b], _ =>
    simp only [List.cons_append, List.nil_append, List.cons.injEq] at hr
    apply hend
    rw [← hpre, ← hr.2.1]
    simp
  | a :: b :: c :: v, _ =>
    simp only [List.cons_append, List.nil_append, List.cons.injEq] at hr
    apply hsep
    rw [← hpre, ← hr.1, ← hr.2.1, ← hr.2.2.1]
    exact ⟨pre, v, by simp⟩

theorem split_join_aux (l : List GoString) :
    l ≠ [] → (∀ e ∈ l, ¬ [bar, bar, bar] <:+: e) →
      (∀ e ∈ l.dropLast, e.getLast? ≠ some bar) →
      splitBars [] (Join l [bar, bar, bar]) = l := by
  induction l with
  | nil => intro h; exact absurd rfl h
  | cons a t ih =>
    intro _ hsep hend
    cases t with
    | nil =>
      simp only [Join]
      rw [splitBars_no_sep a [] (hsep a (by simp))]
      simp
    | cons b t =>
      simp only [Join]
      rw [List.append_assoc, splitBars_field a _ []]
      · rw [ih (by simp) (fun e he => hsep e (List.mem_cons_of_mem _ he))
          (fun e he => hend e (by simp only [List.dropLast_cons₂, List.mem_cons]; exact Or.inr he))]
        simp
      · exact no_early_sep a _ (hsep a (by simp)) (hend a (by simp))

/-- C7, as the code has it: joining a non-empty list with `|||` and splitting
the result on `|||` gives the list back when no element contains `|||` and no
element but the last ends with `|`. -/
theorem join_split_roundtrip (l : List GoString) (hne : l ≠ [])
    (hsep : ∀ e ∈ l, ¬ listSep <:+: e)
    (hend : ∀ e ∈ l.dropLast, e.getLast? ≠ some 0x7C) :
    Split (Join l listSep) listSep = l := by
  have e : listSep = [bar, bar, bar] := by decide
  rw [e] at hsep ⊢
  have := split_join_aux l hne hsep hend
  simpa [Split, splitBars] using this

/-- Witness for the round trip at the list `a`, `|b`, `c|`. -/
theorem join_split_roundtrip_witness :
    Split (Join [utf8 "a", utf8 "|b", utf8 "c|"] listSep) listSep =
      [utf8 "a", utf8 "|b", utf8 "c|"] :=
  join_split_roundtrip [utf8 "a", utf8 "|b", utf8 "c|"] (by decide) (by decide) (by decide)

/-- C7 as stated fails: no element of the list `a|`, `b` contains `|||`, yet
joining and splitting gives `a`, `|b`; and the empty list, joined and split,
gives one empty string. -/
theorem join_split_counterexample :
    ¬ listSep <:+: utf8 "a|" ∧ ¬ listSep <:+: utf8 "b" ∧
      Split (Join [utf8 "a|", utf8 "b"] listSep) listSep = [utf8 "a", utf8 "|b"] ∧
      Split (Join [utf8 "a|", utf8 "b"] listSep) listSep ≠ [utf8 "a|", utf8 "b"] ∧
      Split (Join [] listSep) listSep = [[]] ∧
      Split (Join [] listSep) listSep ≠ [] := by
  decide

/-! ### The entry-dump load -/

theorem emit_cases (ok : Storage) (tr : List Event) (e : Event) :
    emit ok tr e = .ok (tr ++ [e]) ∨ emit ok tr e = .error (.storage, tr) := by
  unfold emit
  by_cases h : ok tr e = true
  · left; simp [h]
  · right; simp [h]

theorem emitAll_append (ok : Storage) (a b : List Event) :
    ∀ tr, emitAll ok tr (a ++ b) =
      match emitAll ok tr a with
      | .ok tr1 => emitAll ok tr1 b
      | .error x => .error x := by
  induction a with
  | nil => intro tr; simp [emitAll]
  | cons e a ih =>
    intro tr
    simp only [List.cons_append, emitAll]
    cases emit ok tr e with
    | error x => rfl
    | ok tr1 => exact ih tr1

theorem emitAll_cases (ok : Storage) (evs : List Event) :
    ∀ tr, (emitAll ok tr evs = .ok (tr ++ evs)) ∨
      ∃ done, done <+: evs ∧ emitAll ok tr evs = .error (.storage, tr ++ done) := by
  induction evs with
  | nil => intro tr; left; simp [emitAll]
  | cons e evs ih =>
    intro tr
    simp only [emitAll, emit]
    by_cases h : ok tr e = true
    · simp only [h, if_true]
      rcases ih (tr ++ [e]) with h1 | ⟨done, hd, h1⟩
      · left; rw [h1]; simp
      · right
        refine ⟨e :: done, ?_, ?_⟩
        · exact (List.prefix_cons_inj e).mpr hd
        · rw [h1]; simp
    · right
      refine ⟨[], List.nil_prefix, ?_⟩
      simp [h]

theorem emitAll_acceptAll (evs : List Event) :
    ∀ tr, emitAll acceptAll tr evs = .ok (tr ++ evs) := by
  induction evs with
  | nil => intro tr; simp [emitAll]
  | cons e evs ih =>
    intro tr
    simp [emitAll, emit, acceptAll, ih]

theorem definitionsLoop_eq (ok : Storage) (hid : Nat) (ds : List Definition) :
    ∀ idx did tr, definitionsLoop ok hid ds idx did tr =
      match emitAll ok tr ((definitionsOut hid ds idx did).map Event.exec) with
      | .ok tr1 => .ok (did + ds.length, tr1)
      | .error x => .error x := by
  induction ds with
  | nil => intro idx did tr; simp [definitionsLoop, definitionsOut, emitAll]
  | cons d ds ih =>
    intro idx did tr
    simp only [definitionsLoop, definitionsOut, List.map_cons, emitAll]
    cases emit ok tr (.exec (definitionStmt did hid idx d)) with
    | error x => rfl
    | ok tr1 =>
      simp only [ih]
      have : did + 1 + ds.length = did + (d :: ds).length := by simp; omega
      rw [this]

theorem heteronymsLoop_eq (ok : Storage) (eid : Nat) (hs : List Heteronym) :
    ∀ idx hid did tr, heteronymsLoop ok eid hs idx hid did tr =
      match emitAll ok tr ((heteronymsOut eid hs idx hid did).map Event.exec) with
      | .ok tr1 => .ok (hid + hs.length, did + countSenses hs, tr1)
      | .error x => .error x := by
  induction hs with
  | nil => intro idx hid did tr; simp [heteronymsLoop, heteronymsOut, emitAll, countSenses]
  | cons h hs ih =>
    intro idx hid did tr
    simp only [heteronymsLoop, heteronymsOut, List.map_cons, emitAll, List.map_append]
    cases emit ok tr (.exec (heteronymStmt hid eid idx h)) with
    | error x => rfl
    | ok tr1 =>
      simp only [definitionsLoop_eq, emitAll_append]
      cases emitAll ok tr1 ((definitionsOut hid h.Definitions 0 did).map Event.exec) with
      | error x => rfl
      | ok tr2 =>
        simp only [ih]
        have e1 : hid + 1 + hs.length = hid + (h :: hs).length := by simp; omega
        have e2 : did + h.Definitions.length + countSenses hs = did + countSenses (h :: hs) := by
          simp [countSenses]; omega
        rw [e1, e2]

theorem entriesLoop_eq (ok : Storage) (es : List Entry) :
    ∀ eid hid did tr, entriesLoop ok (es.map some) eid hid did tr =
      match emitAll ok tr ((entriesOut es eid hid did).map Event.exec) with
      | .ok tr1 => .ok (eid + es.length, hid + countHeteronyms es, did + countDefinitions es, tr1)
      | .error x => .error x := by
  induction es with
  | nil =>
    intro eid hid did tr
    simp [entriesLoop, entriesOut, emitAll, countHeteronyms, countDefinitions]
  | cons e es ih =>
    intro eid hid did tr
    simp only [List.map_cons, entriesLoop, entriesOut, emitAll, List.map_append]
    cases emit ok tr (.exec (entryStmt eid e)) with
    | error x => rfl
    | ok tr1 =>
      simp only [heteronymsLoop_eq, emitAll_append]
      cases emitAll ok tr1 ((heteronymsOut eid e.Heteronyms 0 hid did).map Event.exec) with
      | error x => rfl
      | ok tr2 =>
        simp only [ih]
        have e1 : eid + 1 + es.length = eid + (e :: es).length := by simp; omega
        have e2 : hid + e.Heteronyms.length + countHeteronyms es = hid + countHeteronyms (e :: es) := by
          simp [countHeteronyms]; omega
        have e3 : did + countSenses e.Heteronyms + countDefinitions es
            = did + countDefinitions (e :: es) := by
          simp [countDefinitions]; omega
        rw [e1, e2, e3]

theorem addMoedictData_eq (ok : Storage) (data : GoString) (es : List Entry)
    (err : Option DecodeError) :
    addMoedictData ok (some data) (fun _ => (es.map some, err)) =
      match emitAll ok [] (moedictEvents es) with
      | .ok tr => ⟨tr, .returned⟩
      | .error (p, tr) => ⟨tr, .panicked p⟩ := by
  simp only [addMoedictData, moedictEvents, emitAll_append, emitAll, bind, Except.bind,
    entriesLoop_eq]
  cases emit ok [] (.exec (.createTable .md_entries)) with
  | error x => rfl
  | ok tr1 =>
    simp only []
    cases emit ok tr1 (.exec (.createTable .md_heteronyms)) with
    | error x => rfl
    | ok tr2 =>
      simp only []
      cases emit ok tr2 (.exec (.createTable .md_definitions)) with
      | error x => rfl
      | ok tr3 =>
        simp only []
        cases emitAll ok tr3 ((entriesOut es 1 1 1).map Event.exec) with
        | error x => rfl
        | ok tr4 =>
          simp only []
          cases emit ok tr4 (.exec (.createIndex .entries_title_index)) with
          | error x => rfl
          | ok tr5 =>
            simp only []
            cases emit ok tr5 (.exec (.createIndex .entries_id_index)) with
            | error x => rfl
            | ok tr6 =>
              simp only []
              cases emit ok tr6 (.exec (.createIndex .heteronyms_id_index)) with
              | error x => rfl
              | ok tr7 =>
                simp only []
                cases emit ok tr7 (.exec (.createIndex .definitions_id_index)) with
                | error x => rfl
                | ok tr8 => rfl

theorem insertStmts_append (a b : List Event) :
    insertStmts (a ++ b) = insertStmts a ++ insertStmts b := by
  simp [insertStmts, List.filterMap_append]

theorem insertStmts_definitionsOut (hid : Nat) (ds : List Definition) :
    ∀ idx did, insertStmts ((definitionsOut hid ds idx did).map Event.exec) =
      definitionsOut hid ds idx did := by
  induction ds with
  | nil => intro idx did; simp [definitionsOut, insertStmts]
  | cons d ds ih =>
    intro idx did
    have := ih (idx + 1) (did + 1)
    simp only [insertStmts] at this
    simp [definitionsOut, insertStmts, definitionStmt, this]

theorem insertStmts_heteronymsOut (eid : Nat) (hs : List Heteronym) :
    ∀ idx hid did, insertStmts ((heteronymsOut eid hs idx hid did).map Event.exec) =
      heteronymsOut eid hs idx hid did := by
  induction hs with
  | nil => intro idx hid did; simp [heteronymsOut, insertStmts]
  | cons h hs ih =>
    intro idx hid did
    simp only [heteronymsOut, List.map_cons, List.map_append]
    rw [← List.singleton_append, insertStmts_append, insertStmts_append, ih,
      insertStmts_definitionsOut]
    simp [insertStmts, heteronymStmt]

theorem insertStmts_entriesOut (es : List Entry) :
    ∀ eid hid did, insertStmts ((entriesOut es eid hid did).map Event.exec) =
      entriesOut es eid hid did := by
  induction es with
  | nil => intro eid hid did; simp [entriesOut, insertStmts]
  | cons e es ih =>
    intro eid hid did
    simp only [entriesOut, List.map_cons, List.map_append]
    rw [← List.singleton_append, insertStmts_append, insertStmts_append, ih,
      insertStmts_heteronymsOut]
    simp [insertStmts, entryStmt]

theorem insertStmts_moedictEvents (es : List Entry) :
    insertStmts (moedictEvents es) = entriesOut es 1 1 1 := by
  have h : moedictEvents es =
      [.exec (.createTable .md_entries), .exec (.createTable .md_heteronyms),
        .exec (.createTable .md_definitions)] ++
      ((entriesOut es 1 1 1).map Event.exec ++
        [.exec (.createIndex .entries_title_index), .exec (.createIndex .entries_id_index),
          .exec (.createIndex .heteronyms_id_index),
          .exec (.createIndex .definitions_id_index)]) := rfl
  rw [h, insertStmts_append, insertStmts_append, insertStmts_entriesOut]
  simp [insertStmts]

/-- With a database that serves every request the run returns after all its
requests. -/
theorem addMoedictData_acceptAll (data : GoString) (es : List Entry)
    (err : Option DecodeError) :
    addMoedictData acceptAll (some data) (fun _ => (es.map some, err)) =
      ⟨moedictEvents es, .returned⟩ := by
  rw [addMoedictData_eq, emitAll_acceptAll]
  simp

/-- Whatever the database does, the requests made are an initial segment of
those of the complete run, and all of them when the run returns. -/
theorem addMoedictData_trace (ok : Storage) (data : GoString) (es : List Entry)
    (err : Option DecodeError) :
    (addMoedictData ok (some data) (fun _ => (es.map some, err))).trace <+: moedictEvents es ∧
      ((addMoedictData ok (some data) (fun _ => (es.map some, err))).outcome = .returned →
        (addMoedictData ok (some data) (fun _ => (es.map some, err))).trace = moedictEvents es) := by
  rw [addMoedictData_eq]
  rcases emitAll_cases ok (moedictEvents es) [] with h | ⟨done, hd, h⟩
  · rw [h]; simp
  · rw [h]; simpa using hd

theorem entryRows_append (a b : List Stmt) : entryRows (a ++ b) = entryRows a ++ entryRows b := by
  simp [entryRows]

theorem heteronymRows_append (a b : List Stmt) :
    heteronymRows (a ++ b) = heteronymRows a ++ heteronymRows b := by
  simp [heteronymRows]

theorem definitionRows_append (a b : List Stmt) :
    definitionRows (a ++ b) = definitionRows a ++ definitionRows b := by
  simp [definitionRows]

theorem allSenses_length (hs : List Heteronym) : (allSenses hs).length = countSenses hs := by
  induction hs with
  | nil => rfl
  | cons h hs ih =>
    simp only [allSenses, List.flatMap_cons, List.length_append] at ih ⊢
    simp [countSenses, ih]

theorem allHeteronyms_length (es : List Entry) :
    (allHeteronyms es).length = countHeteronyms es := by
  induction es with
  | nil => rfl
  | cons e es ih =>
    simp only [allHeteronyms, List.flatMap_cons, List.length_append] at ih ⊢
    simp [countHeteronyms, ih]

theorem allSenses_append (a b : List Heteronym) :
    allSenses (a ++ b) = allSenses a ++ allSenses b := by
  simp [allSenses]

theorem allDefinitions_length (es : List Entry) :
    (allDefinitions es).length = countDefinitions es := by
  induction es with
  | nil => rfl
  | cons e es ih =>
    have : allDefinitions (e :: es) = allSenses e.Heteronyms ++ allDefinitions es := by
      simp [allDefinitions, allHeteronyms, allSenses_append]
    rw [this, List.length_append, ih, allSenses_length]
    simp [countDefinitions]

theorem rows_definitionsOut (hid : Nat) (ds : List Definition) :
    ∀ idx did, entryRows (definitionsOut hid ds idx did) = [] ∧
      heteronymRows (definitionsOut hid ds idx did) = [] ∧
      definitionRows (definitionsOut hid ds idx did) = definitionsOut hid ds idx did ∧
      (definitionsOut hid ds idx did).map (fun s => (s.rowId, s.texts)) =
        (ds.enumFrom did).map fun p => (p.1, (definitionStmt 0 0 0 p.2).texts) := by
  induction ds with
  | nil => intro idx did; simp [definitionsOut, entryRows, heteronymRows, definitionRows]
  | cons d ds ih =>
    intro idx did
    obtain ⟨h1, h2, h3, h4⟩ := ih (idx + 1) (did + 1)
    simp only [entryRows, heteronymRows, definitionRows] at h1 h2 h3
    refine ⟨?_, ?_, ?_, ?_⟩
    · simp [definitionsOut, entryRows, definitionStmt, h1]
    · simp [definitionsOut, heteronymRows, definitionStmt, h2]
    · simp [definitionsOut, definitionRows, definitionStmt, h3]
    · simp only [definitionsOut, List.map_cons, List.enumFrom_cons, h4]
      simp [definitionStmt, Stmt.rowId, Stmt.texts]

theorem rows_heteronymsOut (eid : Nat) (hs : List Heteronym) :
    ∀ idx hid did, entryRows (heteronymsOut eid hs idx hid did) = [] ∧
      (heteronymRows (heteronymsOut eid hs idx hid did)).map (fun s => (s.rowId, s.texts)) =
        ((hs.enumFrom hid).map fun p => (p.1, (heteronymStmt 0 0 0 p.2).texts)) ∧
      (definitionRows (heteronymsOut eid hs idx hid did)).map (fun s => (s.rowId, s.texts)) =
        (((allSenses hs).enumFrom did).map fun p => (p.1, (definitionStmt 0 0 0 p.2).texts)) := by
  induction hs with
  | nil => intro idx hid did; simp [heteronymsOut, entryRows, heteronymRows, definitionRows, allSenses]
  | cons h hs ih =>
    intro idx hid did
    obtain ⟨h1, h2, h3⟩ := ih (idx + 1) (hid + 1) (did + h.Definitions.length)
    obtain ⟨d1, d2, d3, d4⟩ := rows_definitionsOut hid h.Definitions 0 did
    have e : heteronymsOut eid (h :: hs) idx hid did =
        [heteronymStmt hid eid idx h] ++ (definitionsOut hid h.Definitions 0 did ++
          heteronymsOut eid hs (idx + 1) (hid + 1) (did + h.Definitions.length)) := rfl
    rw [e]
    refine ⟨?_, ?_, ?_⟩
    · rw [entryRows_append, entryRows_append, h1, d1]
      simp [entryRows, heteronymStmt]
    · rw [heteronymRows_append, heteronymRows_append, d2, List.nil_append, List.map_append, h2]
      simp [heteronymRows, heteronymStmt, Stmt.rowId, Stmt.texts]
    · rw [definitionRows_append, definitionRows_append, d3, List.map_append, List.map_append,
        h3, d4]
      have : allSenses (h :: hs) = h.Definitions ++ allSenses hs := by simp [allSenses]
      rw [this, List.enumFrom_append, List.map_append]
      simp [definitionRows, heteronymStmt]

theorem rows_entriesOut (es : List Entry) :
    ∀ eid hid did,
      entryRows (entriesOut es eid hid did) = ((es.enumFrom eid).map fun p => entryStmt p.1 p.2) ∧
      (heteronymRows (entriesOut es eid hid did)).map (fun s => (s.rowId, s.texts)) =
        (((allHeteronyms es).enumFrom hid).map fun p => (p.1, (heteronymStmt 0 0 0 p.2).texts)) ∧
      (definitionRows (entriesOut es eid hid did)).map (fun s => (s.rowId, s.texts)) =
        (((allDefinitions es).enumFrom did).map
          fun p => (p.1, (definitionStmt 0 0 0 p.2).texts)) := by
  induction es with
  | nil =>
    intro eid hid did
    simp [entriesOut, entryRows, heteronymRows, definitionRows, allHeteronyms, allDefinitions,
      allSenses]
  | cons e es ih =>
    intro eid hid did
    obtain ⟨h1, h2, h3⟩ := ih (eid + 1) (hid + e.Heteronyms.length) (did + countSenses e.Heteronyms)
    obtain ⟨d1, d2, d3⟩ := rows_heteronymsOut eid e.Heteronyms 0 hid did
    have e1 : entriesOut (e :: es) eid hid did =
        [entryStmt eid e] ++ (heteronymsOut eid e.Heteronyms 0 hid did ++
          entriesOut es (eid + 1) (hid + e.Heteronyms.length)
            (did + countSenses e.Heteronyms)) := rfl
    have e2 : allHeteronyms (e :: es) = e.Heteronyms ++ allHeteronyms es := by
      simp [allHeteronyms]
    have e3 : allDefinitions (e :: es) = allSenses e.Heteronyms ++ allDefinitions es := by
      simp [allDefinitions, allHeteronyms, allSenses_append]
    rw [e1]
    refine ⟨?_, ?_, ?_⟩
    · rw [entryRows_append, entryRows_append, h1, d1]
      simp [entryRows, entryStmt]
    · rw [heteronymRows_append, heteronymRows_append, List.map_append, List.map_append, h2, d2,
        e2, List.enumFrom_append, List.map_append]
      simp [heteronymRows, entryStmt]
    · rw [definitionRows_append, definitionRows_append, List.map_append, List.map_append, h3, d3,
        e3, List.enumFrom_append, List.map_append, allSenses_length]
      simp [definitionRows, entryStmt]

theorem definitionsOut_eq (hid : Nat) (ds : List Definition) :
    ∀ idx did, definitionsOut hid ds idx did =
      ds.mapIdx fun m d => definitionStmt (did + m) hid (idx + m) d := by
  induction ds with
  | nil => intro idx did; simp [definitionsOut]
  | cons d ds ih =>
    intro idx did
    rw [definitionsOut, List.mapIdx_cons, ih]
    have : (fun m d => definitionStmt (did + 1 + m) hid (idx + 1 + m) d) =
        (fun m d => definitionStmt (did + (m + 1)) hid (idx + (m + 1)) d) := by
      funext m d
      rw [Nat.add_assoc, Nat.add_assoc, Nat.add_comm 1 m]
    rw [this]
    simp

theorem heteronymsOut_eq (eid : Nat) (hs : List Heteronym) :
    ∀ idx hid did, heteronymsOut eid hs idx hid did =
      (hs.mapIdx fun j h =>
        heteronymStmt (hid + j) eid (idx + j) h ::
          definitionsOut (hid + j) h.Definitions 0 (did + countSenses (hs.take j))).flatten := by
  induction hs with
  | nil => intro idx hid did; simp [heteronymsOut]
  | cons h hs ih =>
    intro idx hid did
    rw [heteronymsOut, List.mapIdx_cons, ih]
    have : (fun j h1 =>
          heteronymStmt (hid + 1 + j) eid (idx + 1 + j) h1 ::
            definitionsOut (hid + 1 + j) h1.Definitions 0
              (did + h.Definitions.length + countSenses (hs.take j))) =
        (fun j h1 =>
          heteronymStmt (hid + (j + 1)) eid (idx + (j + 1)) h1 ::
            definitionsOut (hid + (j + 1)) h1.Definitions 0
              (did + countSenses ((h :: hs).take (j + 1)))) := by
      funext j h1
      have a1 : hid + 1 + j = hid + (j + 1) := by omega
      have a2 : idx + 1 + j = idx + (j + 1) := by omega
      have a3 : did + h.Definitions.length + countSenses (hs.take j) =
          did + countSenses ((h :: hs).take (j + 1)) := by
        simp [countSenses]; omega
      rw [a1, a2, a3]
    rw [this]
    simp [countSenses]

theorem entriesOut_eq (es : List Entry) :
    ∀ eid hid did, entriesOut es eid hid did =
      (es.mapIdx fun k e =>
        entryStmt (eid + k) e ::
          heteronymsOut (eid + k) e.Heteronyms 0 (hid + countHeteronyms (es.take k))
            (did + countDefinitions (es.take k))).flatten := by
  induction es with
  | nil => intro eid hid did; simp [entriesOut]
  | cons e es ih =>
    intro eid hid did
    rw [entriesOut, List.mapIdx_cons, ih]
    have : (fun k e1 =>
          entryStmt (eid + 1 + k) e1 ::
            heteronymsOut (eid + 1 + k) e1.Heteronyms 0
              (hid + e.Heteronyms.length + countHeteronyms (es.take k))
              (did + countSenses e.Heteronyms + countDefinitions (es.take k))) =
        (fun k e1 =>
          entryStmt (eid + (k + 1)) e1 ::
            heteronymsOut (eid + (k + 1)) e1.Heteronyms 0
              (hid + countHeteronyms ((e :: es).take (k + 1)))
              (did + countDefinitions ((e :: es).take (k + 1)))) := by
      funext k e1
      have a1 : eid + 1 + k = eid + (k + 1) := by omega
      have a2 : hid + e.Heteronyms.length + countHeteronyms (es.take k) =
          hid + countHeteronyms ((e :: es).take (k + 1)) := by
        simp [countHeteronyms]; omega
      have a3 : did + countSenses e.Heteronyms + countDefinitions (es.take k) =
          did + countDefinitions ((e :: es).take (k + 1)) := by
        simp [countDefinitions]; omega
      rw [a1, a2, a3]
    rw [this]
    simp [countHeteronyms, countDefinitions]

theorem mapIdx_congr {α β : Type} (f g : Nat → α → β) (l : List α)
    (h : ∀ i a, f i a = g i a) : l.mapIdx f = l.mapIdx g := by
  have : f = g := funext fun i => funext fun a => h i a
  rw [this]

theorem definitionsOut_spec (hid d0 : Nat) (ds : List Definition) :
    definitionsOut hid ds 0 (d0 + 1) = senseRows hid d0 ds := by
  rw [definitionsOut_eq, senseRows]
  apply mapIdx_congr
  intro m d
  have a1 : d0 + 1 + m = d0 + m + 1 := by omega
  rw [a1, Nat.zero_add]
  rfl

theorem heteronymsOut_spec (eid h0 d0 : Nat) (hs : List Heteronym) :
    heteronymsOut eid hs 0 (h0 + 1) (d0 + 1) = variantRows eid h0 d0 hs := by
  rw [heteronymsOut_eq, variantRows]
  apply congrArg List.flatten
  apply mapIdx_congr
  intro j h
  have a1 : h0 + 1 + j = h0 + j + 1 := by omega
  have a2 : d0 + 1 + countSenses (hs.take j) = d0 + countSenses (hs.take j) + 1 := by omega
  rw [a1, a2, Nat.zero_add, definitionsOut_spec]
  rfl

theorem entriesOut_spec (es : List Entry) : entriesOut es 1 1 1 = specRows es := by
  rw [entriesOut_eq, specRows]
  apply congrArg List.flatten
  apply mapIdx_congr
  intro k e
  have a1 : 1 + k = k + 1 := by omega
  have a2 : 1 + countHeteronyms (es.take k) = countHeteronyms (es.take k) + 1 := by omega
  have a3 : 1 + countDefinitions (es.take k) = countDefinitions (es.take k) + 1 := by omega
  rw [a1, a2, a3, heteronymsOut_spec]
  rfl

theorem entriesOut_append (a b : List Entry) :
    ∀ eid hid did, entriesOut (a ++ b) eid hid did =
      entriesOut a eid hid did ++
        entriesOut b (eid + a.length) (hid + countHeteronyms a) (did + countDefinitions a) := by
  induction a with
  | nil => intro eid hid did; simp [entriesOut, countHeteronyms, countDefinitions]
  | cons e a ih =>
    intro eid hid did
    have a1 : eid + 1 + a.length = eid + (e :: a).length := by simp; omega
    have a2 : hid + e.Heteronyms.length + countHeteronyms a = hid + countHeteronyms (e :: a) := by
      simp [countHeteronyms]; omega
    have a3 : did + countSenses e.Heteronyms + countDefinitions a
        = did + countDefinitions (e :: a) := by
      simp [countDefinitions]; omega
    show entriesOut (e :: (a ++ b)) eid hid did = _
    rw [entriesOut, ih, a1, a2, a3, entriesOut]
    simp

theorem issuedInserts_acceptAll (data : GoString) (es : List Entry) (err : Option DecodeError) :
    issuedInserts acceptAll data es err = entriesOut es 1 1 1 := by
  rw [issuedInserts, addMoedictData_acceptAll, insertStmts_moedictEvents]

theorem issuedInserts_initial (ok : Storage) (data : GoString) (es : List Entry)
    (err : Option DecodeError) :
    issuedInserts ok data es err <+: entriesOut es 1 1 1 := by
  rw [← insertStmts_moedictEvents, issuedInserts]
  exact (addMoedictData_trace ok data es err).1.filterMap _

theorem issuedInserts_returned (ok : Storage) (data : GoString) (es : List Entry)
    (err : Option DecodeError)
    (h : (addMoedictData ok (some data) (fun _ => (es.map some, err))).outcome = .returned) :
    issuedInserts ok data es err = entriesOut es 1 1 1 := by
  rw [issuedInserts, (addMoedictData_trace ok data es err).2 h, insertStmts_moedictEvents]

theorem heteronymRows_length (es : List Entry) (eid hid did : Nat) :
    (heteronymRows (entriesOut es eid hid did)).length = (allHeteronyms es).length := by
  have := congrArg List.length (rows_entriesOut es eid hid did).2.1
  simpa using this

theorem definitionRows_length (es : List Entry) (eid hid did : Nat) :
    (definitionRows (entriesOut es eid hid did)).length = (allDefinitions es).length := by
  have := congrArg List.length (rows_entriesOut es eid hid did).2.2
  simpa using this

theorem first_variant_row (pre post : List Entry) (e : Entry) (h : Heteronym)
    (hs : List Heteronym) (he : e.Heteronyms = h :: hs) :
    (heteronymRows (entriesOut (pre ++ e :: post) 1 1 1))[(allHeteronyms pre).length]? =
      some (heteronymStmt ((allHeteronyms pre).length + 1) (pre.length + 1) 0 h) := by
  rw [entriesOut_append, heteronymRows_append,
    List.getElem?_append_right (by rw [heteronymRows_length]),
    heteronymRows_length, Nat.sub_self, allHeteronyms_length]
  simp [entriesOut, he, heteronymsOut, heteronymRows, entryStmt, heteronymStmt, Nat.add_comm]

/-- C2: the identifiers `addMoedictData` writes are corpus-wide and gapless in
document order. With a database that serves every request the run returns;
the k-th entry (from 1) is inserted with id k; the rows of the variants are
those of all variants, depth first in input order, with ids 1, 2, 3, ...; the
rows of the senses are those of all senses, depth first in input order, with
ids 1, 2, 3, ...; so the first variant of an entry gets the id one greater
than the number of variants of the entries before it. Whatever the database
does, the inserts issued are an initial segment of these. -/
theorem addMoedictData_ids (data : GoString) (es : List Entry) (err : Option DecodeError) :
    (addMoedictData acceptAll (some data) (fun _ => (es.map some, err))).outcome = .returned ∧
    entryRows (issuedInserts acceptAll data es err) =
      (es.enumFrom 1).map (fun p => entryStmt p.1 p.2) ∧
    (heteronymRows (issuedInserts acceptAll data es err)).map (fun s => (s.rowId, s.texts)) =
      ((allHeteronyms es).enumFrom 1).map (fun p => (p.1, (heteronymStmt 0 0 0 p.2).texts)) ∧
    (definitionRows (issuedInserts acceptAll data es err)).map (fun s => (s.rowId, s.texts)) =
      ((allDefinitions es).enumFrom 1).map (fun p => (p.1, (definitionStmt 0 0 0 p.2).texts)) ∧
    (entryRows (issuedInserts acceptAll data es err)).map Stmt.rowId =
      List.range' 1 es.length ∧
    (heteronymRows (issuedInserts acceptAll data es err)).map Stmt.rowId =
      List.range' 1 (allHeteronyms es).length ∧
    (definitionRows (issuedInserts acceptAll data es err)).map Stmt.rowId =
      List.range' 1 (allDefinitions es).length ∧
    (∀ (pre post : List Entry) (e : Entry) (h : Heteronym) (hs : List Heteronym),
      es = pre ++ e :: post → e.Heteronyms = h :: hs →
      (heteronymRows (issuedInserts acceptAll data es err))[(allHeteronyms pre).length]? =
        some (heteronymStmt ((allHeteronyms pre).length + 1) (pre.length + 1) 0 h)) ∧
    (∀ ok : Storage,
      issuedInserts ok data es err <+: issuedInserts acceptAll data es err) := by
  obtain ⟨r1, r2, r3⟩ := rows_entriesOut es 1 1 1
  rw [issuedInserts_acceptAll]
  refine ⟨by rw [addMoedictData_acceptAll], r1, r2, r3, ?_, ?_, ?_, ?_, ?_⟩
  · rw [r1, List.map_map, ← List.enumFrom_map_fst 1 es]
    apply List.map_congr_left
    intro p _
    simp [entryStmt, Stmt.rowId]
  · have := congrArg (List.map Prod.fst) r2
    simpa [List.map_map, Function.comp_def, List.enumFrom_map_fst] using this
  · have := congrArg (List.map Prod.fst) r3
    simpa [List.map_map, Function.comp_def, List.enumFrom_map_fst] using this
  · intro pre post e h hs hes he
    rw [hes]
    exact first_variant_row pre post e h hs he
  · intro ok
    exact issuedInserts_initial ok data es err

theorem links_definitionsOut (hid : Nat) (ds : List Definition) :
    ∀ idx did, (definitionsOut hid ds idx did).map (fun s => (s.parentId, s.idx)) =
      (List.range' idx ds.length).map fun m => (hid, m) := by
  induction ds with
  | nil => intro idx did; simp [definitionsOut]
  | cons d ds ih =>
    intro idx did
    simp only [definitionsOut, List.map_cons, ih, List.length_cons, List.range'_succ]
    simp [definitionStmt, Stmt.parentId, Stmt.idx]

theorem links_heteronymsOut (eid : Nat) (hs : List Heteronym) :
    ∀ idx hid did,
      (heteronymRows (heteronymsOut eid hs idx hid did)).map (fun s => (s.parentId, s.idx)) =
        ((List.range' idx hs.length).map fun j => (eid, j)) ∧
      (definitionRows (heteronymsOut eid hs idx hid did)).map (fun s => (s.parentId, s.idx)) =
        (hs.enumFrom hid).flatMap fun p =>
          (List.range p.2.Definitions.length).map fun m => (p.1, m) := by
  induction hs with
  | nil => intro idx hid did; simp [heteronymsOut, heteronymRows, definitionRows]
  | cons h hs ih =>
    intro idx hid did
    obtain ⟨h1, h2⟩ := ih (idx + 1) (hid + 1) (did + h.Definitions.length)
    obtain ⟨_, d2, d3, _⟩ := rows_definitionsOut hid h.Definitions 0 did
    have d4 := links_definitionsOut hid h.Definitions 0 did
    have e : heteronymsOut eid (h :: hs) idx hid did =
        [heteronymStmt hid eid idx h] ++ (definitionsOut hid h.Definitions 0 did ++
          heteronymsOut eid hs (idx + 1) (hid + 1) (did + h.Definitions.length)) := rfl
    rw [e]
    refine ⟨?_, ?_⟩
    · rw [heteronymRows_append, heteronymRows_append, d2, List.nil_append, List.map_append, h1,
        List.length_cons, List.range'_succ]
      simp [heteronymRows, heteronymStmt, Stmt.parentId, Stmt.idx]
    · rw [definitionRows_append, definitionRows_append, d3, List.map_append, List.map_append,
        h2, d4, List.enumFrom_cons, List.flatMap_cons, List.range_eq_range']
      simp [definitionRows, heteronymStmt]

theorem links_entriesOut (es : List Entry) :
    ∀ eid hid did,
      (heteronymRows (entriesOut es eid hid did)).map (fun s => (s.parentId, s.idx)) =
        ((es.enumFrom eid).flatMap fun p =>
          (List.range p.2.Heteronyms.length).map fun j => (p.1, j)) ∧
      (definitionRows (entriesOut es eid hid did)).map (fun s => (s.parentId, s.idx)) =
        ((allHeteronyms es).enumFrom hid).flatMap fun p =>
          (List.range p.2.Definitions.length).map fun m => (p.1, m) := by
  induction es with
  | nil =>
    intro eid hid did
    simp [entriesOut, heteronymRows, definitionRows, allHeteronyms]
  | cons e es ih =>
    intro eid hid did
    obtain ⟨h1, h2⟩ := ih (eid + 1) (hid + e.Heteronyms.length) (did + countSenses e.Heteronyms)
    obtain ⟨d1, d2⟩ := links_heteronymsOut eid e.Heteronyms 0 hid did
    have e1 : entriesOut (e :: es) eid hid did =
        [entryStmt eid e] ++ (heteronymsOut eid e.Heteronyms 0 hid did ++
          entriesOut es (eid + 1) (hid + e.Heteronyms.length)
            (did + countSenses e.Heteronyms)) := rfl
    have e2 : allHeteronyms (e :: es) = e.Heteronyms ++ allHeteronyms es := by
      simp [allHeteronyms]
    rw [e1]
    refine ⟨?_, ?_⟩
    · rw [heteronymRows_append, heteronymRows_append, List.map_append, List.map_append, h1, d1,
        List.enumFrom_cons, List.flatMap_cons, List.range_eq_range']
      simp [heteronymRows, entryStmt]
    · rw [definitionRows_append, definitionRows_append, List.map_append, List.map_append, h2, d2,
        e2, List.enumFrom_append, List.flatMap_append]
      simp [definitionRows, entryStmt]

theorem entriesLoop_nil (ok : Storage) (ps : List (Option Entry)) :
    ∀ eid hid did tr, (∃ es : List Entry, ps = es.map some) ∨
      ∃ x, entriesLoop ok ps eid hid did tr = .error x := by
  induction ps with
  | nil => intro eid hid did tr; exact Or.inl ⟨[], rfl⟩
  | cons p ps ih =>
    intro eid hid did tr
    cases p with
    | none => exact Or.inr ⟨_, rfl⟩
    | some e =>
      simp only [entriesLoop]
      cases emit ok tr (.exec (entryStmt eid e)) with
      | error x => exact Or.inr ⟨x, rfl⟩
      | ok tr1 =>
        simp only []
        cases heteronymsLoop ok eid e.Heteronyms 0 hid did tr1 with
        | error x => exact Or.inr ⟨x, rfl⟩
        | ok v =>
          obtain ⟨hid1, did1, tr2⟩ := v
          simp only []
          rcases ih (eid + 1) hid1 did1 tr2 with ⟨es, hes⟩ | ⟨x, hx⟩
          · exact Or.inl ⟨e :: es, by simp [hes]⟩
          · exact Or.inr ⟨x, hx⟩

theorem addMoedictData_returned (ok : Storage) (data : GoString) (ps : List (Option Entry))
    (err : Option DecodeError)
    (h : (addMoedictData ok (some data) (fun _ => (ps, err))).outcome = .returned) :
    ∃ es : List Entry, ps = es.map some := by
  by_contra hne
  have hx : ∀ tr, ∃ x, entriesLoop ok ps 1 1 1 tr = .error x := by
    intro tr
    rcases entriesLoop_nil ok ps 1 1 1 tr with h1 | h1
    · exact absurd h1 hne
    · exact h1
  simp only [addMoedictData, bind, Except.bind] at h
  rcases emit_cases ok [] (.exec (.createTable .md_entries)) with h1 | h1
  · rw [h1] at h
    simp only [] at h
    rcases emit_cases ok ([] ++ [.exec (.createTable .md_entries)])
        (.exec (.createTable .md_heteronyms)) with h2 | h2
    · rw [h2] at h
      simp only [] at h
      rcases emit_cases ok ([] ++ [.exec (.createTable .md_entries)] ++
          [.exec (.createTable .md_heteronyms)]) (.exec (.createTable .md_definitions)) with h3 | h3
      · rw [h3] at h
        simp only [] at h
        obtain ⟨x, hx1⟩ := hx ([] ++ [.exec (.createTable .md_entries)] ++
          [.exec (.createTable .md_heteronyms)] ++ [.exec (.createTable .md_definitions)])
        rw [hx1] at h
        simp at h
      · rw [h3] at h; simp at h
    · rw [h2] at h; simp at h
  · rw [h1] at h; simp at h

/-- C3, as the code has it: when the decoded list holds no nil pointer (with a
database that serves every request, and with any database whenever the run
returns), `addMoedictData` issues one insert per entry, one per variant and
one per sense, in document order. Each entry row is followed by the rows of
its variants, which carry the id of that entry row as `entry_id` and their
0-based position among its variants as `idx`; each variant row is followed by
the rows of its senses, which carry the id of that variant row as
`heteronym_id` and their 0-based position among its senses as `idx`. A run
that returns had no nil pointer in its list. An entry with one variant with
two senses gives one entry row, one variant row with idx 0 and two sense rows
with idx 0 and 1 and the id of the variant row. -/
theorem addMoedictData_rows (data : GoString) (es : List Entry) (err : Option DecodeError) :
    (addMoedictData acceptAll (some data) (fun _ => (es.map some, err))).outcome = .returned ∧
    issuedInserts acceptAll data es err = specRows es ∧
    (entryRows (issuedInserts acceptAll data es err)).length = es.length ∧
    (heteronymRows (issuedInserts acceptAll data es err)).length = (allHeteronyms es).length ∧
    (definitionRows (issuedInserts acceptAll data es err)).length = (allDefinitions es).length ∧
    (entryRows (issuedInserts acceptAll data es err)).map Stmt.rowId =
      List.range' 1 es.length ∧
    (heteronymRows (issuedInserts acceptAll data es err)).map Stmt.rowId =
      List.range' 1 (allHeteronyms es).length ∧
    (heteronymRows (issuedInserts acceptAll data es err)).map (fun s => (s.parentId, s.idx)) =
      ((es.enumFrom 1).flatMap fun p =>
        (List.range p.2.Heteronyms.length).map fun j => (p.1, j)) ∧
    (definitionRows (issuedInserts acceptAll data es err)).map (fun s => (s.parentId, s.idx)) =
      (((allHeteronyms es).enumFrom 1).flatMap fun p =>
        (List.range p.2.Definitions.length).map fun m => (p.1, m)) ∧
    (∀ (ok : Storage) (ps : List (Option Entry)) (err1 : Option DecodeError),
      (addMoedictData ok (some data) (fun _ => (ps, err1))).outcome = .returned →
      ∃ es1 : List Entry, ps = es1.map some ∧ issuedFrom ok data ps err1 = specRows es1) ∧
    (∀ (e : Entry) (h : Heteronym) (d1 d2 : Definition),
      issuedInserts acceptAll data
          [{ e with Heteronyms := [{ h with Definitions := [d1, d2] }] }] err =
        [Stmt.insertEntry 1 (stringToSQLStatement e.Title) (stringToSQLStatement e.Radical)
            e.Stroke_count e.Non_radical_stroke_count,
          Stmt.insertHeteronym 1 1 0 (stringToSQLStatement h.Pinyin)
            (stringToSQLStatement h.Bopomofo) (stringToSQLStatement h.Bopomofo2),
          Stmt.insertDefinition 1 1 0 (stringToSQLStatement d1.Def)
            (stringToSQLStatement (Join d1.Quote listSep))
            (stringToSQLStatement (Join d1.Example listSep))
            (stringToSQLStatement d1.DefType)
            (stringToSQLStatement (Join d1.Link listSep))
            (stringToSQLStatement d1.Synonyms) (stringToSQLStatement d1.Antonyms),
          Stmt.insertDefinition 2 1 1 (stringToSQLStatement d2.Def)
            (stringToSQLStatement (Join d2.Quote listSep))
            (stringToSQLStatement (Join d2.Example listSep))
            (stringToSQLStatement d2.DefType)
            (stringToSQLStatement (Join d2.Link listSep))
            (stringToSQLStatement d2.Synonyms) (stringToSQLStatement d2.Antonyms)]) := by
  obtain ⟨r1, r2, _⟩ := rows_entriesOut es 1 1 1
  obtain ⟨l1, l2⟩ := links_entriesOut es 1 1 1
  refine ⟨by rw [addMoedictData_acceptAll], ?_, ?_, ?_, ?_, ?_, ?_, ?_, ?_, ?_, ?_⟩
  · rw [issuedInserts_acceptAll, entriesOut_spec]
  · rw [issuedInserts_acceptAll, r1]
    simp
  · rw [issuedInserts_acceptAll, heteronymRows_length]
  · rw [issuedInserts_acceptAll, definitionRows_length]
  · rw [issuedInserts_acceptAll, r1, List.map_map, ← List.enumFrom_map_fst 1 es]
    apply List.map_congr_left
    intro p _
    simp [entryStmt, Stmt.rowId]
  · rw [issuedInserts_acceptAll]
    have := congrArg (List.map Prod.fst) r2
    simpa [List.map_map, Function.comp_def, List.enumFrom_map_fst] using this
  · rw [issuedInserts_acceptAll]
    exact l1
  · rw [issuedInserts_acceptAll]
    exact l2
  · intro ok ps err1 h
    obtain ⟨es1, hes⟩ := addMoedictData_returned ok data ps err1 h
    subst hes
    exact ⟨es1, rfl, by
      have := issuedInserts_returned ok data es1 err1 h
      rw [entriesOut_spec] at this
      exact this⟩
  · intro e h d1 d2
    rw [issuedInserts_acceptAll]
    simp [entriesOut, heteronymsOut, definitionsOut, entryStmt, heteronymStmt, definitionStmt]

/-- C3 as stated fails on a list with a nil pointer: the JSON text
`[null,{"title":"a"}]` decodes without error to a nil pointer followed by one
entry; the run creates the three tables and panics when it reads the title
through the nil pointer, so the entry of the list gets no row. -/
theorem addMoedictData_nil_counterexample :
    addMoedictData acceptAll (some (utf8 "[null,\x7b\x22title\x22:\x22a\x22\x7d]"))
        (fun _ => ([none, some ⟨utf8 "a", [], 0, 0, []⟩], none)) =
      ⟨[.exec (.createTable .md_entries), .exec (.createTable .md_heteronyms),
          .exec (.createTable .md_definitions)], .panicked .nilPointer⟩ ∧
    entryRows (issuedFrom acceptAll (utf8 "[null,\x7b\x22title\x22:\x22a\x22\x7d]")
        [none, some ⟨utf8 "a", [], 0, 0, []⟩] none) = [] ∧
    ([none, some (⟨utf8 "a", [], 0, 0, []⟩ : Entry)].filterMap id).length = 1 := by
  decide

/-! ### The lexicon load -/

theorem cedictLine_trace (ok : Storage) (l : GoString) (tr : List Event) :
    stepTrace (cedictLine ok l tr) = tr ∨
      ∃ r, consistentRow r ∧ cedictLine ok l tr = .ok (tr ++ [.copyRow r]) := by
  unfold cedictLine
  split
  · simp only []
    split
    · left; rfl
    · split
      · left; rfl
      · split
        · left; rfl
        · rename_i trad _ simp _ hne
          split
          · simp only [emit]
            split
            · right
              refine ⟨_, ?_, rfl⟩
              simp only [ne_eq, Decidable.not_not] at hne
              exact ⟨hne, rfl⟩
            · left; rfl
          · left; rfl
  · left; rfl

theorem cedictLoop_trace (ok : Storage) (ls : List GoString) :
    ∀ tr, ∃ rows : List CedictRow, (∀ r ∈ rows, consistentRow r) ∧
      stepTrace (cedictLoop ok ls tr) = tr ++ rows.map Event.copyRow := by
  induction ls with
  | nil => intro tr; exact ⟨[], by simp, by simp [cedictLoop, stepTrace]⟩
  | cons l ls ih =>
    intro tr
    rcases cedictLine_trace ok l tr with h | ⟨r, hr, h⟩
    · cases hl : cedictLine ok l tr with
      | error x =>
        refine ⟨[], by simp, ?_⟩
        rw [hl] at h
        obtain ⟨p, tr1⟩ := x
        simp only [stepTrace] at h
        simp [cedictLoop, hl, stepTrace, h]
      | ok tr1 =>
        rw [hl] at h
        simp only [stepTrace] at h
        subst h
        obtain ⟨rows, hrows, ht⟩ := ih tr1
        exact ⟨rows, hrows, by simp [cedictLoop, hl, ht]⟩
    · obtain ⟨rows, hrows, ht⟩ := ih (tr ++ [.copyRow r])
      refine ⟨r :: rows, ?_, ?_⟩
      · intro x hx
        rcases List.mem_cons.mp hx with rfl | hx
        · exact hr
        · exact hrows x hx
      · simp [cedictLoop, h, ht]

theorem cedictLine_unequal (ok : Storage) (l : GoString) (tr : List Event)
    (h : unequalLine l = true) :
    cedictLine ok l tr = .error (.runecountUnequal (lineForms l).1 (lineForms l).2, tr) := by
  unfold unequalLine at h
  simp only [Bool.and_eq_true, decide_eq_true_eq, Bool.not_eq_true'] at h
  obtain ⟨⟨h1, h2⟩, h3⟩ := h
  unfold cedictLine lineForms
  have hc : l ≠ [] ∧ ¬ HasPrefix l (utf8 "#") = true := ⟨h1, by simp [h2]⟩
  rw [if_pos hc]
  simp only []
  cases e1 : (FindStringSubmatch l)[1]? with
  | none => simp [e1] at h3
  | some t =>
    cases e2 : (FindStringSubmatch l)[2]? with
    | none => simp [e1, e2] at h3
    | some s =>
      simp only [e1, e2, bne_iff_ne, ne_eq] at h3
      simp [h3]

theorem cedictLoop_unequal (ok : Storage) (l : GoString) (post : List GoString)
    (h : unequalLine l = true) (pre : List GoString) :
    ∀ tr, cedictLoop ok (pre ++ l :: post) tr =
      match cedictLoop ok pre tr with
      | .ok tr1 => .error (.runecountUnequal (lineForms l).1 (lineForms l).2, tr1)
      | .error e => .error e := by
  induction pre with
  | nil => intro tr; simp [cedictLoop, cedictLine_unequal ok l tr h]
  | cons a pre ih =>
    intro tr
    simp only [List.cons_append, cedictLoop]
    cases cedictLine ok a tr with
    | error e => rfl
    | ok tr1 => exact ih tr1

theorem cedictBody_of_error (ok : Storage) (ls : List GoString) (tr : List Event)
    (e : Panic × List Event) (h : cedictLoop ok ls tr = .error e) :
    cedictBody ok ls tr = .error e := by
  simp [cedictBody, h, bind, Except.bind]

theorem cedictBody_of_ok (ok : Storage) (ls : List GoString) (tr tr1 : List Event)
    (h : cedictLoop ok ls tr = .ok tr1) :
    ∃ more, more <+: cedictEpilogue ∧ stepTrace (cedictBody ok ls tr) = tr1 ++ more := by
  simp only [cedictBody, h, bind, Except.bind]
  rcases emit_cases ok tr1 .copyFlush with h1 | h1
  · rw [h1]
    simp only []
    rcases emit_cases ok (tr1 ++ [.copyFlush] ++ [.commit])
        (.exec (.createIndex .trad_index)) with h2 | h2
    · rw [h2]
      simp only []
      rcases emit_cases ok (tr1 ++ [.copyFlush] ++ [.commit] ++
          [.exec (.createIndex .trad_index)]) (.exec (.createIndex .simp_index)) with h3 | h3
      · rw [h3]
        exact ⟨cedictEpilogue, List.prefix_refl _, by simp [stepTrace, cedictEpilogue]⟩
      · rw [h3]
        exact ⟨[.copyFlush, .commit, .exec (.createIndex .trad_index)],
          ⟨[.exec (.createIndex .simp_index)], rfl⟩, by simp [stepTrace]⟩
    · rw [h2]
      exact ⟨[.copyFlush, .commit], ⟨_, rfl⟩, by simp [stepTrace]⟩
  · rw [h1]
    exact ⟨[], List.nil_prefix, by simp [stepTrace]⟩

theorem copiedRows_append (a b : List Event) :
    copiedRows (a ++ b) = copiedRows a ++ copiedRows b := by
  simp [copiedRows, List.filterMap_append]

theorem copiedRows_map (rows : List CedictRow) : copiedRows (rows.map Event.copyRow) = rows := by
  induction rows with
  | nil => rfl
  | cons r rows ih =>
    simp only [copiedRows] at ih
    simp [copiedRows, ih]

theorem copiedRows_of_prefix (t l : List Event) (h : t <+: l) (hl : copiedRows l = []) :
    copiedRows t = [] := by
  have := h.filterMap (fun e => match e with
    | .copyRow r => some r
    | _ => none)
  have h2 : copiedRows t <+: copiedRows l := this
  rw [hl] at h2
  exact List.prefix_nil.mp h2

/-- The rows streamed by the part of the run that follows the prologue. -/
theorem loadLines_rows (ok : Storage) (ls : List GoString) (tr : List Event) :
    ∃ rows : List CedictRow, (∀ r ∈ rows, consistentRow r) ∧
      copiedRows (loadLines ok ls tr).trace = copiedRows tr ++ rows := by
  obtain ⟨rows, hrows, ht⟩ := cedictLoop_trace ok ls tr
  refine ⟨rows, hrows, ?_⟩
  cases hl : cedictLoop ok ls tr with
  | error e =>
    obtain ⟨p, tr1⟩ := e
    rw [hl] at ht
    simp only [stepTrace] at ht
    simp only [loadLines, cedictBody_of_error ok ls tr _ hl, ht]
    simp [copiedRows_append, copiedRows_map]
    rfl
  | ok tr1 =>
    rw [hl] at ht
    simp only [stepTrace] at ht
    obtain ⟨more, hm, hb⟩ := cedictBody_of_ok ok ls tr tr1 hl
    have hmore : copiedRows more = [] := copiedRows_of_prefix more _ hm rfl
    have : copiedRows (loadLines ok ls tr).trace = copiedRows (tr1 ++ more) := by
      unfold loadLines
      cases hc : cedictBody ok ls tr with
      | error e =>
        obtain ⟨p, t⟩ := e
        rw [hc] at hb
        simp only [stepTrace] at hb
        simp only [hb, copiedRows_append]
        simp
        rfl
      | ok t =>
        rw [hc] at hb
        simp only [stepTrace] at hb
        simp only [hb, copiedRows_append]
        simp
        rfl
    rw [this, ht, copiedRows_append, copiedRows_append, copiedRows_map, hmore]
    simp

theorem addCedictData_cases (ok : Storage) (data : GoString) :
    addCedictData ok (some data) = loadLines ok (Split data [newline]) cedictPrologue ∨
      ((addCedictData ok (some data)).outcome = .panicked .storage ∧
        ((addCedictData ok (some data)).trace = [] ∨
          (addCedictData ok (some data)).trace = [.exec (.createTable .cedict)] ∨
          (addCedictData ok (some data)).trace = [.exec (.createTable .cedict), .begin])) := by
  simp only [addCedictData, bind, Except.bind]
  rcases emit_cases ok [] (.exec (.createTable .cedict)) with h1 | h1
  · rw [h1]
    simp only []
    rcases emit_cases ok ([] ++ [.exec (.createTable .cedict)]) .begin with h2 | h2
    · rw [h2]
      simp only []
      rcases emit_cases ok ([] ++ [.exec (.createTable .cedict)] ++ [.begin]) .prepare with h3 | h3
      · rw [h3]
        left; rfl
      · rw [h3]
        right; exact ⟨rfl, Or.inr (Or.inr rfl)⟩
    · rw [h2]
      right; exact ⟨rfl, Or.inr (Or.inl rfl)⟩
  · rw [h1]
    right; exact ⟨rfl, Or.inl rfl⟩

theorem loadLines_unequal (ok : Storage) (pre post : List GoString) (l : GoString)
    (h : unequalLine l = true) (tr : List Event) :
    (∃ p, (loadLines ok (pre ++ l :: post) tr).outcome = .panicked p) ∧
      (Event.commit ∉ tr → Event.commit ∉ (loadLines ok (pre ++ l :: post) tr).trace) ∧
      loadLines ok (pre ++ l :: post) tr = loadLines ok (pre ++ [l]) tr ∧
      (∀ tr1, cedictLoop ok pre tr = .ok tr1 →
        loadLines ok (pre ++ l :: post) tr =
          ⟨tr1 ++ [.closeStmt], .panicked (.runecountUnequal (lineForms l).1 (lineForms l).2)⟩) := by
  have e1 := cedictLoop_unequal ok l post h pre tr
  have e2 := cedictLoop_unequal ok l [] h pre tr
  obtain ⟨rows, _, ht⟩ := cedictLoop_trace ok pre tr
  cases hl : cedictLoop ok pre tr with
  | error e =>
    obtain ⟨p, t⟩ := e
    rw [hl] at e1 e2 ht
    simp only [stepTrace] at ht
    have b1 := cedictBody_of_error ok _ tr _ e1
    have b2 := cedictBody_of_error ok _ tr _ e2
    refine ⟨⟨p, by simp [loadLines, b1]⟩, ?_, by simp [loadLines, b1, b2], ?_⟩
    · intro hc
      simp [loadLines, b1, ht, hc]
    · intro tr1 h1
      exact absurd h1 (by simp)
  | ok t =>
    rw [hl] at e1 e2 ht
    simp only [stepTrace] at ht
    have b1 := cedictBody_of_error ok _ tr _ e1
    have b2 := cedictBody_of_error ok _ tr _ e2
    refine ⟨⟨.runecountUnequal (lineForms l).1 (lineForms l).2, by simp [loadLines, b1]⟩, ?_,
      by simp [loadLines, b1, b2], ?_⟩
    · intro hc
      simp [loadLines, b1, ht, hc]
    · intro tr1 h1
      have : t = tr1 := by simpa using h1
      subst this
      simp [loadLines, b1]

/-- C5: every row streamed to the bulk copy has traditional and simplified
forms of equal rune counts (and stores that count). If a line of the file is
one the loop parses with unequal counts, the run panics, the commit step is
not reached and no row is committed; the run is the one of the file cut after
that line, so no later line is processed; and when the lines before it pass,
the run ends at that line with the mismatch of its two forms. The line
`你 你们 [ni3] /you/` (1 rune against 2) ends the run so, also after a line
that was streamed. -/
theorem addCedictData_runecount (ok : Storage) (data : GoString) :
    (∀ row ∈ copiedRows (addCedictData ok (some data)).trace, consistentRow row) ∧
    (∀ (pre post : List GoString) (l : GoString),
      Split data [newline] = pre ++ l :: post → unequalLine l = true →
      (∃ p, (addCedictData ok (some data)).outcome = .panicked p) ∧
      Event.commit ∉ (addCedictData ok (some data)).trace ∧
      committedRows (addCedictData ok (some data)).trace = [] ∧
      (∀ data1, Split data1 [newline] = pre ++ [l] →
        addCedictData ok (some data1) = addCedictData ok (some data)) ∧
      (∀ tr1, Event.prepare ∈ (addCedictData ok (some data)).trace →
        cedictLoop ok pre cedictPrologue = .ok tr1 →
        addCedictData ok (some data) =
          ⟨tr1 ++ [.closeStmt],
            .panicked (.runecountUnequal (lineForms l).1 (lineForms l).2)⟩)) ∧
    addCedictData acceptAll (some (utf8 "你 你们 [ni3] /you/")) =
      ⟨cedictPrologue ++ [.closeStmt],
        .panicked (.runecountUnequal (utf8 "你") (utf8 "你们"))⟩ ∧
    RuneCountInString (utf8 "你") = 1 ∧ RuneCountInString (utf8 "你们") = 2 ∧
    addCedictData acceptAll
        (some (utf8 "好 好 [hao3] /good/\n你 你们 [ni3] /you/\n好 好 [hao3] /good/")) =
      ⟨cedictPrologue ++
          [.copyRow ⟨utf8 "好", utf8 "好", utf8 "hao3", utf8 "good", 1⟩, .closeStmt],
        .panicked (.runecountUnequal (utf8 "你") (utf8 "你们"))⟩ := by
  refine ⟨?_, ?_, by decide, by decide, by decide, by decide⟩
  · intro row hrow
    rcases addCedictData_cases ok data with h | ⟨_, h | h | h⟩
    · rw [h] at hrow
      obtain ⟨rows, hrows, hc⟩ := loadLines_rows ok (Split data [newline]) cedictPrologue
      rw [hc] at hrow
      have : copiedRows cedictPrologue = [] := rfl
      rw [this, List.nil_append] at hrow
      exact hrows row hrow
    · rw [h] at hrow; simp [copiedRows] at hrow
    · rw [h] at hrow; simp [copiedRows] at hrow
    · rw [h] at hrow; simp [copiedRows] at hrow
  · intro pre post l hs hl
    have hcommit : Event.commit ∉ (addCedictData ok (some data)).trace := by
      rcases addCedictData_cases ok data with h | ⟨_, h | h | h⟩
      · rw [h, hs]
        exact (loadLines_unequal ok pre post l hl cedictPrologue).2.1 (by decide)
      · rw [h]; simp
      · rw [h]; simp
      · rw [h]; simp
    refine ⟨?_, hcommit, by simp [committedRows, hcommit], ?_, ?_⟩
    · rcases addCedictData_cases ok data with h | ⟨h, _⟩
      · rw [h, hs]
        exact (loadLines_unequal ok pre post l hl cedictPrologue).1
      · exact ⟨_, h⟩
    · intro data1 hs1
      simp only [addCedictData, hs, hs1,
        (loadLines_unequal ok pre post l hl _).2.2.1]
    · intro tr1 hp hloop
      rcases addCedictData_cases ok data with h | ⟨_, h | h | h⟩
      · rw [h, hs]
        exact (loadLines_unequal ok pre post l hl cedictPrologue).2.2.2 tr1 hloop
      · rw [h] at hp; simp at hp
      · rw [h] at hp; simp at hp
      · rw [h] at hp; simp at hp

/-- C4, on the code: a line that is not empty, is not a comment and has no
match makes the loop body panic with an index out of range when it reads group
1 of the absent match; the file `hello` ends the run so, with no row streamed
and no line number in the panic. -/
theorem addCedictData_malformed_line :
    (∀ (ok : Storage) (l : GoString) (tr : List Event),
      l ≠ [] → HasPrefix l (utf8 "#") = false → FindStringSubmatch l = [] →
      cedictLine ok l tr = .error (.indexOutOfRange, tr)) ∧
    FindStringSubmatch (utf8 "hello") = [] ∧
    addCedictData acceptAll (some (utf8 "hello")) =
      ⟨cedictPrologue ++ [.closeStmt], .panicked .indexOutOfRange⟩ := by
  refine ⟨?_, by decide, by decide⟩
  intro ok l tr h1 h2 h3
  unfold cedictLine
  have hc : l ≠ [] ∧ ¬ HasPrefix l (utf8 "#") = true := ⟨h1, by simp [h2]⟩
  rw [if_pos hc]
  simp [h3]

/-- C6, on the code: the error value of the decoding has no effect on the run;
for the file `{`, which is not JSON, the decoder leaves the slice empty and
returns an error, and the run creates the three tables and the four indices
and returns. -/
theorem addMoedictData_decode_error :
    (∀ (ok : Storage) (data : GoString)
        (unmarshal : GoString → List (Option Entry) × Option DecodeError),
      addMoedictData ok (some data) unmarshal =
        addMoedictData ok (some data) (fun d => ((unmarshal d).1, none))) ∧
    addMoedictData acceptAll (some (utf8 "\x7b"))
        (fun _ => ([], some ⟨"unexpected end of JSON input"⟩)) =
      ⟨[.exec (.createTable .md_entries), .exec (.createTable .md_heteronyms),
          .exec (.createTable .md_definitions),
          .exec (.createIndex .entries_title_index), .exec (.createIndex .entries_id_index),
          .exec (.createIndex .heteronyms_id_index),
          .exec (.createIndex .definitions_id_index)], .returned⟩ ∧
    createdTables (addMoedictData acceptAll (some (utf8 "\x7b"))
        (fun _ => ([], some ⟨"unexpected end of JSON input"⟩))).trace =
      [.md_entries, .md_heteronyms, .md_definitions] := by
  refine ⟨?_, by decide, by decide⟩
  intro ok data unmarshal
  rfl

/-- C8: the line `好 好 [hao3] /good/well/` is matched by the line regexp with
groups `好`, `好`, `hao3` and `good/well`, and the file made of this line gives
exactly one streamed row, with traditional `好`, simplified `好`, romanization
`hao3`, gloss `good / well` and count 1, the rune count of the three bytes of
`好`; the run then flushes, commits and creates the two indices. -/
theorem addCedictData_scenario_hao :
    FindStringSubmatch (utf8 "好 好 [hao3] /good/well/") =
      [utf8 "好 好 [hao3] /good/well/", utf8 "好", utf8 "好", utf8 "hao3", utf8 "good/well"] ∧
    addCedictData acceptAll (some (utf8 "好 好 [hao3] /good/well/")) =
      ⟨cedictPrologue ++
          [.copyRow ⟨utf8 "好", utf8 "好", utf8 "hao3", utf8 "good / well", 1⟩,
            .copyFlush, .commit, .exec (.createIndex .trad_index),
            .exec (.createIndex .simp_index), .closeStmt], .returned⟩ ∧
    copiedRows (addCedictData acceptAll (some (utf8 "好 好 [hao3] /good/well/"))).trace =
      [⟨utf8 "好", utf8 "好", utf8 "hao3", utf8 "good / well", 1⟩] ∧
    (utf8 "好").length = 3 ∧ RuneCountInString (utf8 "好") = 1 := by
  decide

end AddCedictMoedictToDb
